import Mathlib

/-!
Verification development for the jurisprudence ingestion system
(source files: `app.py`, `utils.py`, `config.py`).

The Python source is shallowly embedded below.  Pure functions become Lean
functions over `List Char` / `String` / `ℚ`; the SQLite store becomes an
explicit list of rows; the paginated HTTP source becomes a deterministic
"world" function from page number and attempt index to a transport-level
result; floating-point similarity scores are modelled as real numbers.
Character classes restrict Python's Unicode `\w` / `\s` / `.lower()` to the
Latin repertoire actually used by the corpus (ASCII plus the accented
Spanish letters named in the source regexes).
-/

namespace Spec2Proof

/-! ## Configuration constants (`config.py`) -/

/-- Model: `config.MIN_WORD_LENGTH`. -/
def MIN_WORD_LENGTH : Nat := 4

/-- Model: `config.MAX_KEYWORDS`. -/
def MAX_KEYWORDS : Nat := 10

/-- Model: `config.SUMMARY_LENGTH`. -/
def SUMMARY_LENGTH : Nat := 200

/-- Model: `config.STOPWORDS` (a Python `set`; modelled as a list, only membership
is ever used). -/
def STOPWORDS : List String :=
  ["el", "la", "de", "en", "a", "que", "y", "los", "las", "del",
   "al", "es", "un", "una", "por", "para", "con", "se", "su", "le",
   "lo", "como", "más", "o", "pero", "sus", "les", "ya", "este",
   "ese", "esto", "eso", "estos", "esos", "esta", "esa", "estas",
   "esas", "aqui", "ahi", "alli", "nos", "ante", "sobre", "todo",
   "también", "tras", "otro", "otra", "otros", "otras", "él", "ella",
   "ellos", "ellas", "si", "no", "ni", "cuando", "donde", "quien",
   "cual", "cuales", "cuyo", "cuya", "cuyos", "cuyas"]

/-! ## Character-level text utilities -/

/-- The character class `[a-záéíóúñ]` of the keyword regex in
`extract_keywords`. -/
def classC (c : Char) : Bool :=
  ('a' ≤ c && c ≤ 'z') || c = 'á' || c = 'é' || c = 'í' || c = 'ó' ||
    c = 'ú' || c = 'ñ'

/-- Python's regex word class `\w`, restricted to the Latin repertoire of the
corpus: ASCII alphanumerics, underscore and the accented Spanish letters.
Used only to decide the `\b` word boundaries of the keyword regex. -/
def wordChar (c : Char) : Bool :=
  c.isAlphanum || c = '_' || classC c || c = 'ü' || c = 'Ü' || c = 'Á' ||
    c = 'É' || c = 'Í' || c = 'Ó' || c = 'Ú' || c = 'Ñ'

/-- Python `str.lower`, restricted to ASCII letters and the accented Spanish
letters relevant to `classC`. -/
def pyLower (c : Char) : Char :=
  if 'A' ≤ c ∧ c ≤ 'Z' then Char.ofNat (c.toNat + 32)
  else if c = 'Á' then 'á'
  else if c = 'É' then 'é'
  else if c = 'Í' then 'í'
  else if c = 'Ó' then 'ó'
  else if c = 'Ú' then 'ú'
  else if c = 'Ñ' then 'ñ'
  else if c = 'Ü' then 'ü'
  else c

/-- Python's regex whitespace class `\s`, restricted to the six ASCII
whitespace characters. -/
def isPySpace (c : Char) : Bool :=
  c = ' ' || c = '\t' || c = '\n' || c = '\r' ||
    c = Char.ofNat 11 || c = Char.ofNat 12

/-- Model: `re.sub(r'\s+', ' ', texto)`: replace every maximal whitespace run by a
single space.  The boolean argument records whether the previous character
was whitespace. -/
def collapseWsAux : List Char → Bool → List Char
  | [], _ => []
  | c :: cs, prevSp =>
    if isPySpace c then
      if prevSp then collapseWsAux cs true else ' ' :: collapseWsAux cs true
    else c :: collapseWsAux cs false

/-- Python `str.strip()` on a character list. -/
def stripChars (l : List Char) : List Char :=
  ((l.dropWhile isPySpace).reverse.dropWhile isPySpace).reverse

/-- Python `sep.join(parts)`. -/
def joinSep (sep : String) : List String → String
  | [] => ""
  | [x] => x
  | x :: y :: xs => x ++ sep ++ joinSep sep (y :: xs)

/-- The backspace character `chr 8`. -/
def bspChar : Char := Char.ofNat 8

/-- The token scan of `extract_keywords`.  The pattern of the source is the
concatenation `r'\b[a-záéíóúñ]{' + str(n) + ',}\b'`, whose second string
literal is NOT a raw string: its `\b` denotes the backspace character
`chr 8`, not a word boundary.  The compiled regex therefore matches a word
boundary, then at least `minLen` characters of `classC`, then a literal
backspace, and the matched text (hence the returned token) includes that
trailing backspace.  The scan below walks the text left to right: `acc`
holds the current candidate run in reverse (empty when not inside a run) and
`prevW` records whether the previous character was a word character (so that
`\b` holds at the start of a candidate run exactly when it is `false`).  A
run is emitted only when it is immediately followed by a backspace; the end
of the text never closes a match. -/
def tokenizeGo (minLen : Nat) : List Char → List Char → Bool → List String
  | [], _, _ => []
  | c :: cs, acc, prevW =>
    if acc = [] then
      if !prevW && classC c then tokenizeGo minLen cs [c] true
      else tokenizeGo minLen cs [] (wordChar c)
    else
      if classC c then tokenizeGo minLen cs (c :: acc) true
      else if c = bspChar ∧ minLen ≤ acc.length then
        String.mk (acc.reverse ++ [bspChar]) :: tokenizeGo minLen cs [] (wordChar c)
      else
        tokenizeGo minLen cs [] (wordChar c)

/-! ## Keyword extraction and summaries (`app.py`, `extract_keywords` and
`generate_summary`) -/

/-- A `fundamentos` value is either a list of paragraphs or a single string;
both Python branches (`isinstance(fundamentos, list)`) occur. -/
inductive Fund where
  | lst (xs : List String)
  | str (s : String)
deriving DecidableEq

/-- The `texto` computed at the top of `extract_keywords`:
`' '.join(fundamentos)` for a list, the string itself otherwise. -/
def fundTextKw (f : Fund) : String :=
  match f with
  | .lst xs => joinSep " " xs
  | .str s => s

/-- Number of occurrences of `w` in `l` (the `Counter` count). -/
def countOcc (l : List String) (w : String) : Nat :=
  (l.filter (fun x => x = w)).length

/-- The keys of `Counter(l)` in first-occurrence order. -/
def dedupFirstAux : List String → List String → List String
  | [], _ => []
  | x :: xs, seen =>
    if x ∈ seen then dedupFirstAux xs seen
    else x :: dedupFirstAux xs (x :: seen)

/-- The keys of `l` in first-occurrence order. -/
def dedupFirst (l : List String) : List String :=
  dedupFirstAux l []

/-- Stable insertion of `x` into a list sorted descending by `key`
(`x` goes before the first element whose key is not greater than its own). -/
def insDesc {α β : Type} [LinearOrder β] (key : α → β) (x : α) :
    List α → List α
  | [] => [x]
  | y :: ys => if key x < key y then y :: insDesc key x ys else x :: y :: ys

/-- Stable sort, descending by `key` (the semantics of Python
`list.sort(key=..., reverse=True)` and of `Counter.most_common`, whose ties
keep first-insertion order). -/
def sortDesc {α β : Type} [LinearOrder β] (key : α → β) (l : List α) :
    List α :=
  l.foldr (insDesc key) []

/-- The `palabras_filtradas` list of `extract_keywords`: lower-cased tokens
of the grounds text with the stopwords removed. -/
def filteredTokens (f : Fund) : List String :=
  (tokenizeGo MIN_WORD_LENGTH ((fundTextKw f).data.map pyLower) [] false).filter
    (fun p => decide (p ∉ STOPWORDS))

/-- The `palabras_clave` list of `extract_keywords`:
`[w for w, _ in Counter(palabras_filtradas).most_common(MAX_KEYWORDS)]`. -/
def keywordList (f : Fund) : List String :=
  (sortDesc (fun w => countOcc (filteredTokens f) w)
    (dedupFirst (filteredTokens f))).take MAX_KEYWORDS

/-- Model: `extract_keywords` (`app.py`). -/
def extract_keywords (f : Fund) : String :=
  joinSep ", " (keywordList f)

/-- Model: `generate_summary` (`app.py`): first three grounds paragraphs (or the
whole string), whitespace collapsed and stripped, truncated to
`SUMMARY_LENGTH` characters with a `'...'` marker. -/
def generate_summary (f : Fund) : String :=
  let texto : String := match f with
    | .lst xs => joinSep " " (xs.take 3)
    | .str s => s
  let t : List Char := stripChars (collapseWsAux texto.data false)
  if SUMMARY_LENGTH < t.length then
    String.mk (t.take (SUMMARY_LENGTH - 3)) ++ "..."
  else
    String.mk t

/-! ## Comparison engine (`utils.py`, `ComparisonTool.compare_sentencias`)

`difflib.SequenceMatcher` and `difflib.unified_diff` are standard-library
collaborators; they are modelled from their documented contract: matching
blocks are found recursively around a longest matching block (ties resolved
earliest in `a`, then earliest in `b`), `ratio()` is `2*M/T` with `M` the
total matched size and `T` the total length (`1.0` when both sequences are
empty), and `unified_diff` renders grouped opcodes with `n` lines of
context. -/

/-- Length of the longest common prefix of two lists. -/
def commonPfx {α : Type} [DecidableEq α] : List α → List α → Nat
  | x :: xs, y :: ys => if x = y then commonPfx xs ys + 1 else 0
  | _, _ => 0

/-- All candidate matches `(i, j, k)` where `k` is the length of the common
prefix of `a.drop i` and `b.drop j`, in lexicographic `(i, j)` order. -/
def candMatches {α : Type} [DecidableEq α] (a b : List α) :
    List (Nat × Nat × Nat) :=
  (List.range (a.length + 1)).flatMap fun i =>
    (List.range (b.length + 1)).map fun j =>
      (i, j, commonPfx (a.drop i) (b.drop j))

/-- The longest matching block (first candidate of maximal length, i.e. ties
go to the earliest start in `a`, then in `b`). -/
def longestMatch {α : Type} [DecidableEq α] (a b : List α) :
    Nat × Nat × Nat :=
  (candMatches a b).foldl
    (fun best c => if best.2.2 < c.2.2 then c else best) (0, 0, 0)

/-- Prefix-length bound (left list). -/
theorem commonPfx_le_left {α : Type} [DecidableEq α] :
    ∀ (x y : List α), commonPfx x y ≤ x.length
  | [], _ => by simp [commonPfx]
  | _ :: _, [] => by simp [commonPfx]
  | a :: x, b :: y => by
    by_cases h : a = b
    · simpa [commonPfx, h] using commonPfx_le_left x y
    · simp [commonPfx, h]

/-- Prefix-length bound (right list). -/
theorem commonPfx_le_right {α : Type} [DecidableEq α] :
    ∀ (x y : List α), commonPfx x y ≤ y.length
  | [], _ => by simp [commonPfx]
  | _ :: _, [] => by simp [commonPfx]
  | a :: x, b :: y => by
    by_cases h : a = b
    · simpa [commonPfx, h] using commonPfx_le_right x y
    · simp [commonPfx, h]

/-- The selection fold of `longestMatch` preserves any property held by the
seed and by every candidate. -/
theorem foldl_best_prop {P : Nat × Nat × Nat → Prop} :
    ∀ (l : List (Nat × Nat × Nat)) (b : Nat × Nat × Nat), P b →
      (∀ c ∈ l, P c) →
      P (l.foldl (fun best c => if best.2.2 < c.2.2 then c else best) b)
  | [], b, hb, _ => hb
  | c :: l, b, hb, hl => by
    apply foldl_best_prop l
    · by_cases h : b.2.2 < c.2.2
      · simpa [h] using hl c (by simp)
      · simpa [h] using hb
    · exact fun d hd => hl d (by simp [hd])

/-- The block returned by `longestMatch` lies inside both lists. -/
theorem longestMatch_bounds {α : Type} [DecidableEq α] (a b : List α) :
    (longestMatch a b).1 + (longestMatch a b).2.2 ≤ a.length ∧
      (longestMatch a b).2.1 + (longestMatch a b).2.2 ≤ b.length := by
  unfold longestMatch
  refine @foldl_best_prop
    (fun m => m.1 + m.2.2 ≤ a.length ∧ m.2.1 + m.2.2 ≤ b.length)
    (candMatches a b) (0, 0, 0) (by simp) ?_
  intro c hc
  simp only [candMatches, List.mem_flatMap, List.mem_map, List.mem_range] at hc
  obtain ⟨i, hi, j, hj, rfl⟩ := hc
  dsimp only
  constructor
  · have := commonPfx_le_left (a.drop i) (b.drop j)
    simp only [List.length_drop] at this
    omega
  · have := commonPfx_le_right (a.drop i) (b.drop j)
    simp only [List.length_drop] at this
    omega

/-- The matching blocks of `SequenceMatcher.get_matching_blocks` (without
the final sentinel): recurse on both sides of the longest matching block.
`oa`, `ob` are the absolute offsets of the current slices.  The junk and
popularity heuristics of `difflib` are not modelled; the claims below only
use properties that hold for any recursive matching-block decomposition. -/
def mblocks {α : Type} [DecidableEq α] (a b : List α) (oa ob : Nat) :
    List (Nat × Nat × Nat) :=
  if _h : (longestMatch a b).2.2 = 0 then []
  else
    have _hb := longestMatch_bounds a b
    mblocks (a.take (longestMatch a b).1) (b.take (longestMatch a b).2.1)
        oa ob ++
      ((oa + (longestMatch a b).1, ob + (longestMatch a b).2.1,
          (longestMatch a b).2.2) ::
        mblocks (a.drop ((longestMatch a b).1 + (longestMatch a b).2.2))
          (b.drop ((longestMatch a b).2.1 + (longestMatch a b).2.2))
          (oa + (longestMatch a b).1 + (longestMatch a b).2.2)
          (ob + (longestMatch a b).2.1 + (longestMatch a b).2.2))
termination_by a.length
decreasing_by
  · simp only [List.length_take]
    omega
  · simp only [List.length_drop]
    omega

/-- Model: `M`, the total size of the matching blocks of two sequences. -/
def matchTotal {α : Type} [DecidableEq α] (a b : List α) : Nat :=
  ((mblocks a b 0 0).map (fun t => t.2.2)).sum

/-- Model: `SequenceMatcher.ratio()`: `2*M/T`, and `1.0` for two empty
sequences. -/
def ratioQ {α : Type} [DecidableEq α] (a b : List α) : ℚ :=
  if a.length + b.length = 0 then 1
  else (2 * (matchTotal a b : ℚ)) / ((a.length : ℚ) + (b.length : ℚ))

/-- Opcode tags of `SequenceMatcher.get_opcodes`. -/
inductive DTag where
  | eq
  | del
  | ins
  | rep
deriving DecidableEq

/-- One opcode `(tag, a1, a2, b1, b2)`. -/
structure Opcode where
  t : DTag
  a1 : Nat
  a2 : Nat
  b1 : Nat
  b2 : Nat
deriving DecidableEq

/-- Model: `get_opcodes` from the matching blocks (the block list is followed by
the `(len(a), len(b), 0)` sentinel): gaps become replace/delete/insert
opcodes, blocks become equal opcodes. -/
def opcodesFrom : List (Nat × Nat × Nat) → Nat → Nat → List Opcode
  | [], _, _ => []
  | (i, j, k) :: rest, ai, bj =>
    (if ai < i ∧ bj < j then [⟨.rep, ai, i, bj, j⟩]
     else if ai < i then [⟨.del, ai, i, bj, j⟩]
     else if bj < j then [⟨.ins, ai, i, bj, j⟩]
     else []) ++
    (if 0 < k then [⟨.eq, i, i + k, j, j + k⟩] else []) ++
    opcodesFrom rest (i + k) (j + k)

/-- The opcodes of two line sequences. -/
def opcodesOf (a b : List String) : List Opcode :=
  opcodesFrom (mblocks a b 0 0 ++ [(a.length, b.length, 0)]) 0 0

/-- Model: `get_grouped_opcodes`: trim a leading equal opcode to its last `n`
lines. -/
def trimHead (n : Nat) : List Opcode → List Opcode
  | [] => []
  | c :: rest =>
    if c.t = .eq then
      ⟨c.t, max c.a1 (c.a2 - n), c.a2, max c.b1 (c.b2 - n), c.b2⟩ :: rest
    else c :: rest

/-- Model: `get_grouped_opcodes`: trim a trailing equal opcode to its first `n`
lines. -/
def trimTail (n : Nat) (l : List Opcode) : List Opcode :=
  match l.reverse with
  | [] => []
  | c :: rest =>
    ((if c.t = .eq then
        ⟨c.t, c.a1, min c.a2 (c.a1 + n), c.b1, min c.b2 (c.b1 + n)⟩
      else c) :: rest).reverse

/-- The grouping loop of `get_grouped_opcodes`: a large equal opcode (more
than `2n` lines) closes the current group, keeping `n` context lines on each
side; a trailing group is yielded unless it is a single equal opcode. -/
def groupLoop (n : Nat) : List Opcode → List Opcode → List (List Opcode)
  | [], group =>
    if group ≠ [] ∧ ¬(group.length = 1 ∧ (group.headD ⟨.eq, 0, 0, 0, 0⟩).t = .eq)
    then [group] else []
  | c :: rest, group =>
    if c.t = .eq ∧ 2 * n < c.a2 - c.a1 then
      (group ++ [⟨c.t, c.a1, min c.a2 (c.a1 + n), c.b1, min c.b2 (c.b1 + n)⟩]) ::
        groupLoop n rest [⟨c.t, max c.a1 (c.a2 - n), c.a2, max c.b1 (c.b2 - n), c.b2⟩]
    else groupLoop n rest (group ++ [c])

/-- Model: `get_grouped_opcodes(n)`. -/
def groupOpcodes (n : Nat) (codes : List Opcode) : List (List Opcode) :=
  groupLoop n (trimTail n (trimHead n codes)) []

/-- Python list slice `l[i:j]`. -/
def slice {α : Type} (l : List α) (i j : Nat) : List α :=
  (l.take j).drop i

/-- Model: `difflib._format_range_unified`. -/
def fmtRange (start stop : Nat) : String :=
  let len := stop - start
  if len = 1 then toString (start + 1)
  else toString (if len = 0 then start else start + 1) ++ "," ++ toString len

/-- The lines rendered for one group of opcodes: the `@@` hunk header, then
context, minus and plus lines. -/
def renderGroup (a b : List String) (g : List Opcode) : List String :=
  match g.head?, g.getLast? with
  | some f, some l =>
    ("@@ -" ++ fmtRange f.a1 l.a2 ++ " +" ++ fmtRange f.b1 l.b2 ++ " @@") ::
    g.flatMap (fun c =>
      match c.t with
      | .eq => (slice a c.a1 c.a2).map (fun s => " " ++ s)
      | .del => (slice a c.a1 c.a2).map (fun s => "-" ++ s)
      | .ins => (slice b c.b1 c.b2).map (fun s => "+" ++ s)
      | .rep =>
        (slice a c.a1 c.a2).map (fun s => "-" ++ s) ++
          (slice b c.b1 c.b2).map (fun s => "+" ++ s))
  | _, _ => []

/-- Model: `difflib.unified_diff(a, b, lineterm='', n=3)` with empty file labels:
no output for equal sequences, otherwise the two header lines followed by
the rendered groups. -/
def unifiedDiff (n : Nat) (a b : List String) : List String :=
  let groups := groupOpcodes n (opcodesOf a b)
  if groups = [] then []
  else "--- " :: "+++ " :: groups.flatMap (renderGroup a b)

/-! ## Persistence gateway (`app.py`, `save_to_db`) -/

/-- A normalized ruling record, the dictionary shape produced by `fetch_data`
and consumed by `save_to_db`.  `id` is `source.get('id')`, which has no
default and is therefore `None` when the source field is missing. -/
structure Ruling where
  id : Option Nat
  numero_sentencia : String
  fecha_publicacion : String
  nombre_demandante : String
  nombre_demandado : String
  numero_expediente : String
  fundamentos : Fund
  url_archivo : String
deriving DecidableEq

/-- A stored row of the `sentencias` table. -/
structure Row where
  id : Option Nat
  numero_sentencia : String
  fecha_publicacion : String
  nombre_demandante : String
  nombre_demandado : String
  numero_expediente : String
  fundamentos : String
  url_archivo : String
  fecha_scraping : String
  palabras_clave : String
  resumen : String
deriving DecidableEq

/-- A row of the `estadisticas` table. -/
structure Stat where
  fecha : String
  total_sentencias : Nat
  nuevas_sentencias : Nat
  ultima_actualizacion : String
deriving DecidableEq

/-- The database state: the `sentencias` rows plus the append-only
`estadisticas` rows. -/
structure DB where
  rows : List Row
  stats : List Stat
deriving DecidableEq

/-- Model: `fundamentos_texto`: `'\n'.join(...)` for a list, the string itself
otherwise. -/
def fundamentosTexto (f : Fund) : String :=
  match f with
  | .lst xs => joinSep "\n" xs
  | .str s => s

/-- The row inserted for item `it` at scraping time `now`, with the derived
keyword and summary fields. -/
def mkRow (it : Ruling) (now : String) : Row :=
  { id := it.id
    numero_sentencia := it.numero_sentencia
    fecha_publicacion := it.fecha_publicacion
    nombre_demandante := it.nombre_demandante
    nombre_demandado := it.nombre_demandado
    numero_expediente := it.numero_expediente
    fundamentos := fundamentosTexto it.fundamentos
    url_archivo := it.url_archivo
    fecha_scraping := now
    palabras_clave := extract_keywords it.fundamentos
    resumen := generate_summary it.fundamentos }

/-- The `sqlite3.IntegrityError` condition for the `INSERT` of `save_to_db`:
the table has `id INTEGER PRIMARY KEY` and `numero_sentencia TEXT UNIQUE`, so
the insert fails exactly when the ruling number is already present or the
(non-null) id is already present.  (SQLite's fresh-rowid assignment for a
`NULL` id is not modelled; a `NULL` id never conflicts, as in SQLite.) -/
def insertConflict (rows : List Row) (it : Ruling) : Bool :=
  rows.any (fun r => r.numero_sentencia = it.numero_sentencia) ||
    (match it.id with
     | some i => rows.any (fun r => r.id = some i)
     | none => false)

/-- The `UPDATE ... WHERE numero_sentencia = ?` of `save_to_db`, applied to
one stored row: every mutable field is overwritten from the item when the
ruling numbers match. -/
def updateRow (it : Ruling) (now : String) (r : Row) : Row :=
  if r.numero_sentencia = it.numero_sentencia then
    { r with
        fecha_publicacion := it.fecha_publicacion
        nombre_demandante := it.nombre_demandante
        nombre_demandado := it.nombre_demandado
        numero_expediente := it.numero_expediente
        fundamentos := fundamentosTexto it.fundamentos
        url_archivo := it.url_archivo
        fecha_scraping := now
        palabras_clave := extract_keywords it.fundamentos
        resumen := generate_summary it.fundamentos }
  else r

/-- One iteration of the `for item in data` loop of `save_to_db`: insert,
or on conflict update in place; only a successful insert increments the
`nuevas` counter. -/
def saveStep (now : String) (st : List Row × Nat) (it : Ruling) :
    List Row × Nat :=
  if insertConflict st.1 it then
    (st.1.map (updateRow it now), st.2)
  else
    (st.1 ++ [mkRow it now], st.2 + 1)

/-- Model: `save_to_db` (`app.py`): processes the batch, appends one statistics row
with the new total and the count of inserts, and returns the insert count.
The batch shares a single `fecha_actual` timestamp `now`. -/
def save_to_db (db : DB) (data : List Ruling) (now : String) : DB × Nat :=
  let st := data.foldl (saveStep now) (db.rows, 0)
  (⟨st.1, db.stats ++ [⟨now, st.1.length, st.2, now⟩]⟩, st.2)

/-! ## Fetch engine (`app.py`, `fetch_data`) -/

/-- ISO date parsing, `datetime.strptime(s, '%Y-%m-%d').date()`.  CPython's
`%Y` matches exactly four digits, `%m` one or two digits in `1..12`, `%d`
one or two digits in `1..31`; `datetime` then validates the day against the
month length (with leap years) and requires year at least 1; any unconverted
trailing text raises `ValueError`. -/
def daysInMonth (y m : Nat) : Nat :=
  if m = 2 then
    if (y % 4 = 0 ∧ y % 100 ≠ 0) ∨ y % 400 = 0 then 29 else 28
  else if m = 4 ∨ m = 6 ∨ m = 9 ∨ m = 11 then 30
  else 31

/-- Is this a list of ASCII digit characters? -/
def allDigits (l : List Char) : Bool :=
  l.all (fun c => c.isDigit)

/-- The numeric value of a list of ASCII digit characters. -/
def digitsToNat (l : List Char) : Nat :=
  l.foldl (fun n c => 10 * n + (c.toNat - 48)) 0

/-- Split a character list at every occurrence of `sep`. -/
def splitOnCharAux (sep : Char) : List Char → List Char → List (List Char)
  | [], cur => [cur.reverse]
  | c :: cs, cur =>
    if c = sep then cur.reverse :: splitOnCharAux sep cs []
    else splitOnCharAux sep cs (c :: cur)

/-- Model: the `%d` day field of CPython `strptime`: one or two digits, or
a space followed by one nonzero digit (CPython's day pattern contains the
space-padded alternative). -/
def dayVal (ds : List Char) : Option Nat :=
  if allDigits ds ∧ 1 ≤ ds.length ∧ ds.length ≤ 2 then some (digitsToNat ds)
  else
    match ds with
    | [' ', c] => if '1' ≤ c ∧ c ≤ '9' then some (c.toNat - 48) else none
    | _ => none

/-- Model: `datetime.strptime(s, '%Y-%m-%d').date()`, as an optional
`(year, month, day)` triple (`none` models `ValueError`).  `%Y` matches
exactly four digits and `%m` one or two digits; `datetime` then validates
the month, the day against the month length (with leap years), and
requires a year of at least 1. -/
def parseDate (s : String) : Option (Nat × Nat × Nat) :=
  match splitOnCharAux '-' s.data [] with
  | [ys, ms, ds] =>
    if allDigits ys ∧ allDigits ms ∧ ys.length = 4 ∧
        1 ≤ ms.length ∧ ms.length ≤ 2 then
      match dayVal ds with
      | some d =>
        let y := digitsToNat ys
        let m := digitsToNat ms
        if 1 ≤ y ∧ 1 ≤ m ∧ m ≤ 12 ∧ 1 ≤ d ∧ d ≤ daysInMonth y m then
          some (y, m, d)
        else none
      | none => none
    else none
  | _ => none

/-- Order-preserving numeric key of a date triple (for the triples produced
by `parseDate`, whose month and day are below 100, this agrees with the
calendar order used by Python `date` comparison). -/
def dateKey (d : Nat × Nat × Nat) : Nat :=
  d.1 * 10000 + d.2.1 * 100 + d.2.2

/-- One raw item of the API `data` array: the `_source` dictionary with each
field optional (an item with no `_source` key behaves as the item with every
field missing). -/
structure SourceItem where
  id : Option Nat
  numero_sentencia : Option String
  fecha_publicacion : Option String
  nombre_demandante : Option String
  nombre_demandado : Option String
  numero_expediente : Option String
  fundamentos : Option (List String)
  url_archivo : Option String
deriving DecidableEq

/-- A parsed JSON envelope of the API: `error` flag, optional `data` array,
optional `pagination.num_pages`. -/
structure Payload where
  error : Bool
  data : Option (List SourceItem)
  num_pages : Option Nat
deriving DecidableEq

/-- The transport-level outcome of one GET attempt: a network exception
(`requests.exceptions.RequestException`) or a response with a status code
and an optional parsed JSON body (`none` models `response.json()` raising). -/
inductive AttemptResult where
  | netError
  | resp (code : Nat) (body : Option Payload)
deriving DecidableEq

/-- A deterministic simulated source: the result of attempt `i` (0-based)
for page `page`. -/
def World : Type := Nat → Nat → AttemptResult

/-- The observable outcome of the retry loop for one page: the response that
broke the loop (if any), the number of attempts made, and the backoff sleeps
performed. -/
structure Attempted where
  result : Option (Nat × Option Payload)
  attempts : Nat
  sleeps : List Nat
deriving DecidableEq

/-- The retry loop of `fetch_data` (`for i in range(retries)` with
`retries = 3`, initial `delay = 5`): a 429 status, a status of at least 500
and a network error each sleep `delay`, double it and consume an attempt;
any other response breaks the loop immediately.  `b` is the remaining
attempt budget and `i` the 0-based attempt index. -/
def runAttempts (w : World) (page : Nat) : Nat → Nat → Nat → Attempted
  | 0, _, _ => ⟨none, 0, []⟩
  | b + 1, i, delay =>
    match w page i with
    | .netError =>
      let r := runAttempts w page b (i + 1) (2 * delay)
      ⟨r.result, r.attempts + 1, delay :: r.sleeps⟩
    | .resp code body =>
      if code = 429 ∨ 500 ≤ code then
        let r := runAttempts w page b (i + 1) (2 * delay)
        ⟨r.result, r.attempts + 1, delay :: r.sleeps⟩
      else
        ⟨some (code, body), 1, []⟩

/-- The normalization of one raw item inside `fetch_data`: every missing
field is defaulted (`'N/A'` for the text fields, `[]` for the grounds)
except `id`, which is `source.get('id')` with no default. -/
def normalizeItem (s : SourceItem) : Ruling :=
  { id := s.id
    numero_sentencia := s.numero_sentencia.getD "N/A"
    fecha_publicacion := s.fecha_publicacion.getD "N/A"
    nombre_demandante := s.nombre_demandante.getD "N/A"
    nombre_demandado := s.nombre_demandado.getD "N/A"
    numero_expediente := s.numero_expediente.getD "N/A"
    fundamentos := Fund.lst (s.fundamentos.getD [])
    url_archivo := s.url_archivo.getD "N/A" }

/-- The per-item stop-date test of `fetch_data`: the publication date is
compared against the stop date only when the field is present, truthy
(non-empty), not the `'N/A'` sentinel and parses as an ISO date. -/
def itemDate (s : SourceItem) : Option (Nat × Nat × Nat) :=
  match s.fecha_publicacion with
  | none => none
  | some str => if str = "" ∨ str = "N/A" then none else parseDate str

/-- Does this item trigger the stop-date halt for stop key `sdKey`? -/
def itemStops (sdKey : Nat) (s : SourceItem) : Bool :=
  match itemDate s with
  | some d => dateKey d < sdKey
  | none => false

/-- The `for item in data['data']` loop of `fetch_data`: normalize and
append each item, unless a stop date is supplied and an item's parsed date
is strictly earlier; then that item and the rest of the page are discarded
and the stop flag is raised. -/
def processItems (sd : Option (Nat × Nat × Nat)) :
    List SourceItem → List Ruling × Bool
  | [] => ([], false)
  | s :: rest =>
    if (match sd with | some d => itemStops (dateKey d) s | none => false) then
      ([], true)
    else
      let r := processItems sd rest
      (normalizeItem s :: r.1, r.2)

/-- The `while True` pagination loop of `fetch_data`, driven by a fuel
parameter (each iteration consumes one unit; every claim below supplies
enough fuel for the run it describes).  Mirrors the source: the max-pages
check, the retry loop, the skip-on-exhausted-retries path, and the
processing of a successful response (non-200 status, missing body, error
flag, missing or empty `data`, stop-date halt and last-page detection all
terminate the run, returning the accumulated records). -/
def fetchLoop (w : World) (maxPages : Option Nat) (sd : Option (Nat × Nat × Nat)) :
    Nat → Nat → Nat → List Ruling → List Ruling
  | 0, _, _, acc => acc
  | fuel + 1, page, processed, acc =>
    if (match maxPages with | some m => decide (m ≤ processed) | none => false) then
      acc
    else
      match (runAttempts w page 3 0 5).result with
      | none => fetchLoop w maxPages sd fuel (page + 1) (processed + 1) acc
      | some (code, body) =>
        if code = 200 then
          match body with
          | none => acc
          | some pl =>
            match pl.data with
            | none => acc
            | some items =>
              if pl.error = false ∧ items ≠ [] then
                let pr := processItems sd items
                let acc2 := acc ++ pr.1
                if pr.2 then acc2
                else if pl.num_pages.getD page ≤ page then acc2
                else fetchLoop w maxPages sd fuel (page + 1) (processed + 1) acc2
              else acc
        else acc

/-- Model: `fetch_data` (`app.py`): parse the optional stop date (an invalid format
degrades to no stop date) and run the pagination loop from `startPage`. -/
def fetch_data (w : World) (startPage : Nat) (maxPages : Option Nat)
    (stopDateStr : Option String) (fuel : Nat) : List Ruling :=
  fetchLoop w maxPages (stopDateStr.bind parseDate) fuel startPage 0 []

/-- The world of a well-behaved paginated source described by a page list
(1-indexed): every attempt at page `k` answers 200 with a no-error payload
carrying the items of page `k` and the total page count. -/
def pagesWorld (pages : List (List SourceItem)) : World :=
  fun page _ =>
    .resp 200 (some ⟨false, some (pages.getD (page - 1) []), some pages.length⟩)

/-! ## Similarity index (`utils.py`, `TextAnalyzer.find_similar`)

The TF-IDF vectorizer itself is an external collaborator (scikit-learn); its
output is a matrix of numeric row vectors, modelled as `List (List ℚ)`.
Similarity scores are real-valued; `cosSim` is the cosine similarity used by
`sklearn.metrics.pairwise.cosine_similarity` (zero vectors are left
unnormalized there, yielding similarity 0). -/

/-- Dot product of two numeric vectors (trailing entries of the longer
vector are ignored; the rows of one matrix all have equal length). -/
def dotQ (u v : List ℚ) : ℚ :=
  (List.zipWith (fun a b => a * b) u v).sum

/-- Cosine similarity of two rows, as a real number. -/
noncomputable def cosSim (u v : List ℚ) : ℝ :=
  if dotQ u u = 0 ∨ dotQ v v = 0 then 0
  else ((dotQ u v : ℚ) : ℝ) /
    (Real.sqrt ((dotQ u u : ℚ) : ℝ) * Real.sqrt ((dotQ v v : ℚ) : ℝ))

/-- Python `enumerate`, starting at `n`. -/
def enumPairs {α : Type} : Nat → List α → List (Nat × α)
  | _, [] => []
  | n, a :: as_ => (n, a) :: enumPairs (n + 1) as_

/-- Python `list.index` for the id list (only ever called on a member). -/
def idxOfNat (a : Nat) : List Nat → Nat
  | [] => 0
  | b :: l => if b = a then 0 else idxOfNat a l + 1

/-- One result of `find_similar`: a ruling id and its similarity score. -/
structure SimResult where
  id : Nat
  sim : ℝ

/-- The result-collection loop of `find_similar`: walk the sorted
`(index, score)` pairs, keep those with `i != idx and score >= threshold`,
and break as soon as the result list has reached `limit` entries (the length
check runs only after an append, so a qualifying pair is appended even when
`limit = 0`). -/
noncomputable def selectLoop (ids : List Nat) (idx : Nat) (thr : ℝ)
    (lim : Nat) : List (Nat × ℝ) → List SimResult → List SimResult
  | [], acc => acc
  | p :: rest, acc =>
    if p.1 ≠ idx ∧ thr ≤ p.2 then
      let acc2 := acc ++ [⟨ids.getD p.1 0, p.2⟩]
      if lim ≤ acc2.length then acc2
      else selectLoop ids idx thr lim rest acc2
    else selectLoop ids idx thr lim rest acc

/-- The in-memory state of `TextAnalyzer`: the optional vector matrix and
the indexed ids.  `build_index` fills both in lockstep, so a built state has
as many matrix rows as ids. -/
structure AnalyzerState where
  vectors : Option (List (List ℚ))
  sentencias_ids : List Nat

/-- A state as produced by `build_index`: the matrix rows and the id list
have equal lengths. -/
def WFIndex (st : AnalyzerState) : Prop :=
  ∀ vss, st.vectors = some vss → vss.length = st.sentencias_ids.length

/-- Model: `TextAnalyzer.find_similar` (`utils.py`): soft-empty on an unbuilt index
or unknown id; otherwise compute the cosine similarity of the target row
against every row, sort the `(index, score)` pairs by score descending
(Python's sort is stable, also under `reverse=True`), and collect results. -/
noncomputable def find_similar (st : AnalyzerState) (sid : Nat) (thr : ℝ)
    (lim : Nat) : List SimResult :=
  match st.vectors with
  | none => []
  | some vss =>
    if sid ∈ st.sentencias_ids then
      let idx := idxOfNat sid st.sentencias_ids
      let target := vss.getD idx []
      let sims := vss.map (fun v => cosSim target v)
      let pairs := sortDesc (fun p : Nat × ℝ => p.2) (enumPairs 0 sims)
      selectLoop st.sentencias_ids idx thr lim pairs []
    else []

/-! ## Comparison input records and `compare_sentencias` -/

/-- A record as passed to `ComparisonTool.compare_sentencias`: a dictionary
whose fields may each be missing (every access in the source goes through
`dict.get` with a default). -/
structure Sent where
  numero_sentencia : Option String
  fecha_publicacion : Option String
  nombre_demandante : Option String
  nombre_demandado : Option String
  numero_expediente : Option String
  palabras_clave : Option String
  fundamentos : Option Fund
deriving DecidableEq

/-- Python `str.split(', ')` on a character list: split at every
non-overlapping occurrence of the two-character separator, scanning left to
right. -/
def splitCS : List Char → List Char → List (List Char)
  | [], cur => [cur.reverse]
  | [c], cur => [(c :: cur).reverse]
  | c1 :: c2 :: cs, cur =>
    if c1 = ',' ∧ c2 = ' ' then cur.reverse :: splitCS cs []
    else splitCS (c2 :: cs) (c1 :: cur)

/-- Model: `sentencia.get('palabras_clave', '').split(', ')` as a list of keyword
strings (note Python's `''.split(', ') == ['']`). -/
def kwSplit (s : Sent) : List String :=
  (splitCS (s.palabras_clave.getD "").data []).map String.mk

/-- The comparison of one metadata field: both values and an equality
flag. -/
structure MetaCmp where
  v1 : String
  v2 : String
  equal : Bool
deriving DecidableEq

/-- The result dictionary of `compare_sentencias`. -/
structure Comparison where
  metadata : List (String × MetaCmp)
  content_similarity : ℚ
  common_keywords : List String
  unique1 : List String
  unique2 : List String
  fundamentos_diff : List String
deriving DecidableEq

/-- The concatenated grounds text used by `compare_sentencias`:
`' '.join(fundamentos)` for a list, the string itself otherwise, `''` when
the field is missing. -/
def fundTextCmp (s : Sent) : String :=
  match s.fundamentos with
  | none => ""
  | some (.lst xs) => joinSep " " xs
  | some (.str t) => t

/-- Python `str.splitlines()` restricted to `'\n'` line breaks: no trailing
empty line, and the empty string yields no lines. -/
def pySplitlines (s : String) : List String :=
  let parts := (splitOnCharAux '\n' s.data []).map String.mk
  if parts.getLast? = some "" then parts.dropLast else parts

/-- One metadata comparison entry (`dict.get(field, 'N/A')` on both
sides). -/
def metaEntry (a b : Option String) : MetaCmp :=
  ⟨a.getD "N/A", b.getD "N/A", decide (a.getD "N/A" = b.getD "N/A")⟩

/-- Model: `ComparisonTool.compare_sentencias` (`utils.py`).  The two keyword
sets are modelled as duplicate-free lists; Python's `set` iteration order is
hash- and process-dependent, so only membership in `common_keywords` /
`unique_keywords` is meaningful, and the model fixes first-occurrence
order. -/
def compare_sentencias (s1 s2 : Sent) : Comparison :=
  let k1 := kwSplit s1
  let k2 := kwSplit s2
  let f1 := fundTextCmp s1
  let f2 := fundTextCmp s2
  { metadata :=
      [("numero_sentencia", metaEntry s1.numero_sentencia s2.numero_sentencia),
       ("fecha_publicacion", metaEntry s1.fecha_publicacion s2.fecha_publicacion),
       ("nombre_demandante", metaEntry s1.nombre_demandante s2.nombre_demandante),
       ("nombre_demandado", metaEntry s1.nombre_demandado s2.nombre_demandado),
       ("numero_expediente", metaEntry s1.numero_expediente s2.numero_expediente)]
    content_similarity := ratioQ f1.data f2.data
    common_keywords := dedupFirst (k1.filter (fun w => decide (w ∈ k2)))
    unique1 := dedupFirst (k1.filter (fun w => decide (w ∉ k2)))
    unique2 := dedupFirst (k2.filter (fun w => decide (w ∉ k1)))
    fundamentos_diff :=
      (unifiedDiff 3 (pySplitlines f1) (pySplitlines f2)).take 50 }

/-! ## Sanity checks of the embedding on concrete data -/

example : tokenizeGo 4 "hola hola casa el".data [] false = [] := by decide
example :
    tokenizeGo 4 ("hola" ++ String.mk [bspChar] ++ " ho" ++
      String.mk [bspChar] ++ "casa2" ++ String.mk [bspChar]).data [] false =
      ["hola" ++ String.mk [bspChar]] := by decide
example : extract_keywords (Fund.str "hola hola casa el") = "" := by decide
example : generate_summary (Fund.str "  a   b  ") = "a b" := by decide
example : parseDate "2024-1-5" = some (2024, 1, 5) := by decide
example : parseDate "2024-02-30" = none := by decide
example : parseDate "2024-02-29" = some (2024, 2, 29) := by decide
example : parseDate "02024-01-05" = none := by decide
example : parseDate "2024-1- 5" = some (2024, 1, 5) := by decide
example : parseDate "2024- 1-5" = none := by decide

/-! ## Claim C5: normalization of fetched items -/

/-- The tokenizer emits nothing on a text that contains no backspace
character: the compiled pattern ends in a literal backspace. -/
theorem tokenizeGo_no_bsp (minLen : Nat) :
    ∀ (l acc : List Char) (prevW : Bool), bspChar ∉ l →
      tokenizeGo minLen l acc prevW = []
  | [], _, _, _ => rfl
  | c :: cs, acc, prevW, h => by
    have hc : c ≠ bspChar := fun hh => h (hh ▸ List.mem_cons_self c cs)
    have hcs : bspChar ∉ cs := fun hh => h (List.mem_cons_of_mem _ hh)
    by_cases hacc : acc = []
    · by_cases hw : (!prevW && classC c) = true
      · simp only [tokenizeGo, hacc, if_pos rfl, hw, if_pos rfl]
        exact tokenizeGo_no_bsp minLen cs [c] true hcs
      · simp only [tokenizeGo, hacc, if_pos rfl, hw]
        simp only [Bool.false_eq_true, if_false]
        exact tokenizeGo_no_bsp minLen cs [] (wordChar c) hcs
    · by_cases hcl : classC c = true
      · simp only [tokenizeGo, if_neg hacc, hcl, if_pos rfl]
        exact tokenizeGo_no_bsp minLen cs (c :: acc) true hcs
      · have hand : ¬(c = bspChar ∧ minLen ≤ acc.length) := fun hp => hc hp.1
        simp only [tokenizeGo, if_neg hacc, hcl, Bool.false_eq_true, if_false,
          if_neg hand]
        exact tokenizeGo_no_bsp minLen cs [] (wordChar c) hcs

/-- C5, counterexample: the claim asserts that a missing numeric id is
filled with an "unknown"-style sentinel rather than left null, but
`source.get('id')` is the only field access with no default, so the
normalized record of an item with no fields carries a null (`none`) id. -/
theorem claim_C5_counterexample :
    (normalizeItem ⟨none, none, none, none, none, none, none, none⟩).id =
      none := rfl

/-- C5, amended: every field of the normalized record is present; each
missing source field is filled with the `'N/A'` sentinel (the grounds with
`[]`) — except the numeric id, which is copied as-is and is therefore null
when missing. -/
theorem claim_C5 (src : SourceItem) :
    (src.numero_sentencia = none →
      (normalizeItem src).numero_sentencia = "N/A") ∧
    (src.fecha_publicacion = none →
      (normalizeItem src).fecha_publicacion = "N/A") ∧
    (src.nombre_demandante = none →
      (normalizeItem src).nombre_demandante = "N/A") ∧
    (src.nombre_demandado = none →
      (normalizeItem src).nombre_demandado = "N/A") ∧
    (src.numero_expediente = none →
      (normalizeItem src).numero_expediente = "N/A") ∧
    (src.fundamentos = none → (normalizeItem src).fundamentos = Fund.lst []) ∧
    (src.url_archivo = none → (normalizeItem src).url_archivo = "N/A") ∧
    (normalizeItem src).id = src.id := by
  refine ⟨?_, ?_, ?_, ?_, ?_, ?_, ?_, rfl⟩ <;>
    · intro h
      simp [normalizeItem, h]

/-- C5, witness: the amended statement at the item with every field
missing. -/
theorem claim_C5_witness :
    (normalizeItem ⟨none, none, none, none, none, none, none, none⟩).numero_sentencia = "N/A" ∧
    (normalizeItem ⟨none, none, none, none, none, none, none, none⟩).fundamentos = Fund.lst [] :=
  ⟨(claim_C5 ⟨none, none, none, none, none, none, none, none⟩).1 rfl,
   (claim_C5 ⟨none, none, none, none, none, none, none, none⟩).2.2.2.2.2.1 rfl⟩

/-! ## Claim C6: keyword extraction -/

/-- C6: the claim describes `extract_keywords` as tokenizing letter runs,
filtering stopwords and ranking by frequency, but the code disproves it: the
second string literal of the concatenated regex pattern is not a raw string,
so its `\b` is a literal backspace character, and on any input whose text
contains no backspace (every real legal text) the function returns the empty
string — no keyword is ever extracted. -/
theorem claim_C6 (f : Fund)
    (h : bspChar ∉ ((fundTextKw f).data.map pyLower)) :
    extract_keywords f = "" := by
  unfold extract_keywords keywordList filteredTokens
  rw [tokenizeGo_no_bsp MIN_WORD_LENGTH _ [] false h]
  rfl

/-- C6, witness: the bug evaluated at an ordinary Spanish text, which by the
claim should yield `'proceso, judicial'`. -/
theorem claim_C6_witness :
    bspChar ∉ (((fundTextKw (Fund.str "el proceso proceso judicial")).data.map pyLower)) ∧
      extract_keywords (Fund.str "el proceso proceso judicial") = "" :=
  ⟨by decide, claim_C6 (Fund.str "el proceso proceso judicial") (by decide)⟩

/-! ## Claim C9: undated items and the stop-date filter -/

/-- C9: an item whose publication date is absent, empty, the `'N/A'`
sentinel, or unparseable is never compared against the stop date: it is
normalized and included, and the halt flag comes from the remaining items
alone, for every stop date. -/
theorem claim_C9 (sd : Nat × Nat × Nat) (s : SourceItem)
    (rest : List SourceItem)
    (h : s.fecha_publicacion = none ∨
      ∃ str, s.fecha_publicacion = some str ∧
        (str = "N/A" ∨ parseDate str = none)) :
    processItems (some sd) (s :: rest) =
      (normalizeItem s :: (processItems (some sd) rest).1,
        (processItems (some sd) rest).2) := by
  have hdate : itemDate s = none := by
    rcases h with h | ⟨str, hs, h⟩
    · simp [itemDate, h]
    · rcases h with h | h
      · simp [itemDate, hs, h]
      · by_cases he : str = "" ∨ str = "N/A"
        · simp [itemDate, hs, he]
        · simp [itemDate, hs, he, h]
  have hstop : itemStops (dateKey sd) s = false := by
    simp [itemStops, hdate]
  simp [processItems, hstop]

/-- C9, witness: an item dated `'N/A'` is included and does not halt. -/
theorem claim_C9_witness :
    processItems (some (2024, 1, 1))
        [⟨none, none, some "N/A", none, none, none, none, none⟩] =
      ([normalizeItem ⟨none, none, some "N/A", none, none, none, none, none⟩],
        false) := by
  have := claim_C9 (2024, 1, 1)
    ⟨none, none, some "N/A", none, none, none, none, none⟩ []
    (Or.inr ⟨"N/A", rfl, Or.inl rfl⟩)
  simpa [processItems] using this

/-! ## Claim C8: error-flagged or dataless payloads terminate the run -/

/-- C8: when the retry loop hands back a 200 response whose payload has a
truthy error flag or a missing or empty data array, the whole fetch run
terminates, returning exactly the records accumulated so far, and no
further page is requested. -/
theorem claim_C8 (w : World) (mp : Option Nat) (sd : Option (Nat × Nat × Nat))
    (fuel page pr : Nat) (acc : List Ruling) (pl : Payload)
    (hmp : ∀ m, mp = some m → pr < m)
    (h : (runAttempts w page 3 0 5).result = some (200, some pl))
    (hbad : pl.error = true ∨ pl.data = none ∨ pl.data = some []) :
    fetchLoop w mp sd (fuel + 1) page pr acc = acc := by
  have hcond : (match mp with
      | some m => decide (m ≤ pr)
      | none => false) = false := by
    cases mp with
    | none => rfl
    | some m =>
      simp only [decide_eq_false_iff_not, Nat.not_le]
      exact hmp m rfl
  simp only [fetchLoop, hcond, Bool.false_eq_true, if_false, h]
  rcases hbad with h1 | h2 | h3
  · rcases hd : pl.data with _ | items
    · simp [hd]
    · simp [hd, h1]
  · simp [h2]
  · simp [h3]

/-- C8, witness: a world whose page 5 answers an error-flagged payload
leaves the accumulator unchanged. -/
theorem claim_C8_witness :
    fetchLoop (fun _ _ => .resp 200 (some ⟨true, some [], some 1⟩)) none none
      1 5 0 [] = [] :=
  claim_C8 (fun _ _ => .resp 200 (some ⟨true, some [], some 1⟩)) none none 0 5
    0 [] ⟨true, some [], some 1⟩ (fun _ hm => Option.noConfusion hm) rfl
    (Or.inl rfl)

/-! ## Claim C3: retry budget, backoff, and page skipping -/

/-- C3: (1) a response that is neither 429 nor a 5xx breaks the retry loop
at once, after a single attempt and no backoff sleep; (2) a network error
consumes one retry slot, sleeps the current delay and doubles it, as does
(3) a 429 or 5xx response; (4) 429 on the first two attempts and 200 on the
third yields exactly 3 attempts, backoff sleeps 5 then 10, and the 200
response is handed to processing; (5) 500 on every attempt exhausts the
3-attempt budget (sleeps 5, 10, 20) with no response; (6) an exhausted page
makes the pagination loop advance to the next page with the accumulator
intact instead of aborting; (7) a delivered 200 page with a good payload has
its data processed and appended. -/
theorem claim_C3 :
    (∀ (w : World) (page i b d code : Nat) (body : Option Payload),
        w page i = .resp code body → code ≠ 429 → code < 500 →
        runAttempts w page (b + 1) i d = ⟨some (code, body), 1, []⟩) ∧
    (∀ (w : World) (page i b d : Nat),
        w page i = .netError →
        runAttempts w page (b + 1) i d =
          ⟨(runAttempts w page b (i + 1) (2 * d)).result,
            (runAttempts w page b (i + 1) (2 * d)).attempts + 1,
            d :: (runAttempts w page b (i + 1) (2 * d)).sleeps⟩) ∧
    (∀ (w : World) (page i b d code : Nat) (body : Option Payload),
        w page i = .resp code body → (code = 429 ∨ 500 ≤ code) →
        runAttempts w page (b + 1) i d =
          ⟨(runAttempts w page b (i + 1) (2 * d)).result,
            (runAttempts w page b (i + 1) (2 * d)).attempts + 1,
            d :: (runAttempts w page b (i + 1) (2 * d)).sleeps⟩) ∧
    (∀ (w : World) (page : Nat) (b0 b1 body : Option Payload),
        w page 0 = .resp 429 b0 → w page 1 = .resp 429 b1 →
        w page 2 = .resp 200 body →
        runAttempts w page 3 0 5 = ⟨some (200, body), 3, [5, 10]⟩) ∧
    (∀ (w : World) (page : Nat),
        (∀ i, i < 3 → ∃ body, w page i = .resp 500 body) →
        runAttempts w page 3 0 5 = ⟨none, 3, [5, 10, 20]⟩) ∧
    (∀ (w : World) (sd : Option (Nat × Nat × Nat)) (fuel page pr : Nat)
        (acc : List Ruling),
        (runAttempts w page 3 0 5).result = none →
        fetchLoop w none sd (fuel + 1) page pr acc =
          fetchLoop w none sd fuel (page + 1) (pr + 1) acc) ∧
    (∀ (w : World) (sd : Option (Nat × Nat × Nat)) (fuel page pr : Nat)
        (acc : List Ruling) (pl : Payload) (items : List SourceItem),
        (runAttempts w page 3 0 5).result = some (200, some pl) →
        pl.error = false → pl.data = some items → items ≠ [] →
        pl.num_pages = some page →
        fetchLoop w none sd (fuel + 1) page pr acc =
          acc ++ (processItems sd items).1) := by
  have hbreak : ∀ (w : World) (page i b d code : Nat) (body : Option Payload),
      w page i = .resp code body → code ≠ 429 → code < 500 →
      runAttempts w page (b + 1) i d = ⟨some (code, body), 1, []⟩ := by
    intro w page i b d code body hw h429 h500
    have : ¬(code = 429 ∨ 500 ≤ code) := by omega
    simp [runAttempts, hw, this]
  have hnet : ∀ (w : World) (page i b d : Nat),
      w page i = .netError →
      runAttempts w page (b + 1) i d =
        ⟨(runAttempts w page b (i + 1) (2 * d)).result,
          (runAttempts w page b (i + 1) (2 * d)).attempts + 1,
          d :: (runAttempts w page b (i + 1) (2 * d)).sleeps⟩ := by
    intro w page i b d hw
    simp [runAttempts, hw]
  have hretry : ∀ (w : World) (page i b d code : Nat) (body : Option Payload),
      w page i = .resp code body → (code = 429 ∨ 500 ≤ code) →
      runAttempts w page (b + 1) i d =
        ⟨(runAttempts w page b (i + 1) (2 * d)).result,
          (runAttempts w page b (i + 1) (2 * d)).attempts + 1,
          d :: (runAttempts w page b (i + 1) (2 * d)).sleeps⟩ := by
    intro w page i b d code body hw hc
    simp [runAttempts, hw, hc]
  refine ⟨hbreak, hnet, hretry, ?_, ?_, ?_, ?_⟩
  · intro w page b0 b1 body h0 h1 h2
    rw [hretry w page 0 2 5 429 b0 h0 (Or.inl rfl),
      hretry w page 1 1 10 429 b1 h1 (Or.inl rfl),
      hbreak w page 2 0 20 200 body h2 (by omega) (by omega)]
  · intro w page hall
    obtain ⟨c0, h0⟩ := hall 0 (by omega)
    obtain ⟨c1, h1⟩ := hall 1 (by omega)
    obtain ⟨c2, h2⟩ := hall 2 (by omega)
    rw [hretry w page 0 2 5 500 c0 h0 (Or.inr (by omega)),
      hretry w page 1 1 10 500 c1 h1 (Or.inr (by omega)),
      hretry w page 2 0 20 500 c2 h2 (Or.inr (by omega))]
    rfl
  · intro w sd fuel page pr acc h
    simp [fetchLoop, h]
  · intro w sd fuel page pr acc pl items h herr hdata hne hnp
    simp only [fetchLoop, h, hdata]
    simp [herr, hne, hnp]

/-- C3, witness: the 429-then-200 and always-500 scenarios at concrete
worlds, and the skip-to-next-page step. -/
theorem claim_C3_witness :
    runAttempts
        (fun _ i => if i < 2 then .resp 429 none else .resp 200 none)
        1 3 0 5 = ⟨some (200, none), 3, [5, 10]⟩ ∧
    runAttempts (fun _ _ => .resp 500 none) 1 3 0 5 = ⟨none, 3, [5, 10, 20]⟩ ∧
    fetchLoop (fun _ _ => .resp 500 none) none none 1 1 0 [] =
      fetchLoop (fun _ _ => .resp 500 none) none none 0 2 1 [] :=
  ⟨claim_C3.2.2.2.1
      (fun _ i => if i < 2 then .resp 429 none else .resp 200 none)
      1 none none none rfl rfl rfl,
   claim_C3.2.2.2.2.1 (fun _ _ => .resp 500 none) 1
      (fun _ _ => ⟨none, rfl⟩),
   claim_C3.2.2.2.2.2.1 (fun _ _ => .resp 500 none) none 0 1 0 [] rfl⟩

/-! ## Claim C1: idempotent upsert -/

/-- A map whose function fixes every member of the list is the identity. -/
theorem map_id_of {α : Type} (f : α → α) :
    ∀ (l : List α), (∀ x ∈ l, f x = x) → l.map f = l
  | [], _ => rfl
  | x :: xs, h => by
    rw [List.map_cons, h x (List.mem_cons_self x xs),
      map_id_of f xs (fun y hy => h y (List.mem_cons_of_mem x hy))]

/-- Updating the freshly inserted row of `r` with `r` again at time `t2`
rewrites every mutable field, giving the row of the latest version. -/
theorem updateRow_mkRow (r : Ruling) (t1 t2 : String) :
    updateRow r t2 (mkRow r t1) = mkRow r t2 := by
  simp [updateRow, mkRow]

/-- C1: starting from a store without `r`'s ruling number (and without its
id), saving `[r]` twice leaves exactly one row keyed by `r`'s ruling number;
the first call reports one insertion, the second reports zero (the update
is not counted), and the surviving row carries every mutable field — the
derived keywords and summary and the scraping timestamp included — of the
latest ingestion. -/
theorem claim_C1 (db : DB) (r : Ruling) (t1 t2 : String)
    (hnum : ∀ row ∈ db.rows, row.numero_sentencia ≠ r.numero_sentencia)
    (hid : ∀ i, r.id = some i → ∀ row ∈ db.rows, row.id ≠ some i) :
    (save_to_db db [r] t1).2 = 1 ∧
    (save_to_db (save_to_db db [r] t1).1 [r] t2).2 = 0 ∧
    (save_to_db (save_to_db db [r] t1).1 [r] t2).1.rows.filter
        (fun row => decide (row.numero_sentencia = r.numero_sentencia)) =
      [mkRow r t2] := by
  have hconf : insertConflict db.rows r = false := by
    simp only [insertConflict, Bool.or_eq_false_iff]
    constructor
    · rw [List.any_eq_false]
      intro row hrow
      simp [hnum row hrow]
    · cases hr : r.id with
      | none => rfl
      | some i =>
        rw [List.any_eq_false]
        intro row hrow
        simp [hid i hr row hrow]
  have s1 : save_to_db db [r] t1 =
      (⟨db.rows ++ [mkRow r t1],
        db.stats ++ [⟨t1, (db.rows ++ [mkRow r t1]).length, 1, t1⟩]⟩, 1) := by
    simp [save_to_db, saveStep, hconf]
  have hconf2 : insertConflict (db.rows ++ [mkRow r t1]) r = true := by
    simp only [insertConflict, Bool.or_eq_true, List.any_eq_true]
    exact Or.inl ⟨mkRow r t1, by simp, by simp [mkRow]⟩
  have hmap : (db.rows ++ [mkRow r t1]).map (updateRow r t2) =
      db.rows ++ [mkRow r t2] := by
    rw [List.map_append]
    congr 1
    · exact map_id_of _ _ (fun row hrow => by
        simp [updateRow, hnum row hrow])
    · simp [updateRow_mkRow]
  have s2 : save_to_db (save_to_db db [r] t1).1 [r] t2 =
      (⟨db.rows ++ [mkRow r t2],
        (save_to_db db [r] t1).1.stats ++
          [⟨t2, (db.rows ++ [mkRow r t2]).length, 0, t2⟩]⟩, 0) := by
    rw [s1]
    simp [save_to_db, saveStep, hconf2, hmap]
  refine ⟨by rw [s1], by rw [s2], ?_⟩
  rw [s2]
  simp only [List.filter_append]
  have h0 : db.rows.filter
      (fun row => decide (row.numero_sentencia = r.numero_sentencia)) = [] := by
    rw [List.filter_eq_nil_iff]
    intro row hrow
    simp [hnum row hrow]
  rw [h0]
  simp [mkRow]

/-- C1, witness: the upsert pair on an empty store and a concrete record. -/
theorem claim_C1_witness :
    (save_to_db ⟨[], []⟩
        [⟨some 1, "S-1", "2024-01-05", "Ana", "Luis", "E-1",
          Fund.lst ["hola"], "u"⟩] "t1").2 = 1 ∧
    (save_to_db (save_to_db ⟨[], []⟩
        [⟨some 1, "S-1", "2024-01-05", "Ana", "Luis", "E-1",
          Fund.lst ["hola"], "u"⟩] "t1").1
        [⟨some 1, "S-1", "2024-01-05", "Ana", "Luis", "E-1",
          Fund.lst ["hola"], "u"⟩] "t2").2 = 0 ∧
    (save_to_db (save_to_db ⟨[], []⟩
        [⟨some 1, "S-1", "2024-01-05", "Ana", "Luis", "E-1",
          Fund.lst ["hola"], "u"⟩] "t1").1
        [⟨some 1, "S-1", "2024-01-05", "Ana", "Luis", "E-1",
          Fund.lst ["hola"], "u"⟩] "t2").1.rows.filter
        (fun row => decide (row.numero_sentencia = "S-1")) =
      [mkRow ⟨some 1, "S-1", "2024-01-05", "Ana", "Luis", "E-1",
          Fund.lst ["hola"], "u"⟩ "t2"] :=
  claim_C1 ⟨[], []⟩
    ⟨some 1, "S-1", "2024-01-05", "Ana", "Luis", "E-1", Fund.lst ["hola"], "u"⟩
    "t1" "t2" (fun row hrow => absurd hrow (List.not_mem_nil row))
    (fun _ _ row hrow => absurd hrow (List.not_mem_nil row))

/-! ## Claim C7: comparison determinism and bounds -/

/-- The total matched size of the recursive matching-block decomposition is
at most each sequence length (fuel-indexed induction on the left length). -/
theorem mblocks_sum_le {α : Type} [DecidableEq α] :
    ∀ (n : Nat) (a b : List α) (oa ob : Nat), a.length ≤ n →
      ((mblocks a b oa ob).map (fun t => t.2.2)).sum ≤
        min a.length b.length := by
  intro n
  induction n with
  | zero =>
    intro a b oa ob h
    have hk : (longestMatch a b).2.2 = 0 := by
      have := (longestMatch_bounds a b).1
      omega
    rw [mblocks]
    simp [hk]
  | succ n ih =>
    intro a b oa ob h
    rw [mblocks]
    by_cases hk : (longestMatch a b).2.2 = 0
    · simp [hk]
    · obtain ⟨hA, hB⟩ := longestMatch_bounds a b
      have h1 := ih (a.take (longestMatch a b).1)
        (b.take (longestMatch a b).2.1) oa ob
        (by simp [List.length_take]; omega)
      have h2 := ih
        (a.drop ((longestMatch a b).1 + (longestMatch a b).2.2))
        (b.drop ((longestMatch a b).2.1 + (longestMatch a b).2.2))
        (oa + (longestMatch a b).1 + (longestMatch a b).2.2)
        (ob + (longestMatch a b).2.1 + (longestMatch a b).2.2)
        (by simp [List.length_drop]; omega)
      simp only [dif_neg hk, List.map_append, List.sum_append, List.map_cons,
        List.sum_cons]
      simp only [List.length_take, List.length_drop] at h1 h2
      omega

/-- Lemma: `M ≤ min(len a, len b)` for the ratio numerator. -/
theorem matchTotal_le {α : Type} [DecidableEq α] (a b : List α) :
    matchTotal a b ≤ min a.length b.length :=
  mblocks_sum_le a.length a b 0 0 le_rfl

/-- Lemma: `SequenceMatcher.ratio()` is nonnegative. -/
theorem ratioQ_nonneg {α : Type} [DecidableEq α] (a b : List α) :
    0 ≤ ratioQ a b := by
  unfold ratioQ
  split
  · norm_num
  · positivity

/-- Lemma: `SequenceMatcher.ratio()` is at most one. -/
theorem ratioQ_le_one {α : Type} [DecidableEq α] (a b : List α) :
    ratioQ a b ≤ 1 := by
  unfold ratioQ
  split
  · exact le_refl 1
  · rename_i h
    have hM := matchTotal_le a b
    have hpos : (0 : ℚ) < (a.length : ℚ) + (b.length : ℚ) := by
      have : 0 < a.length + b.length := Nat.pos_of_ne_zero h
      exact_mod_cast this
    rw [div_le_one hpos]
    have : 2 * matchTotal a b ≤ a.length + b.length := by omega
    exact_mod_cast this

/-- C7: `compare_sentencias` is a pure function of its two arguments (the
embedding is a Lean function, and the Python source reads no state outside
its inputs), its content similarity lies in `[0, 1]`, and its grounds diff —
the unified diff with 3 context lines cut at 50 lines — never exceeds 50
lines. -/
theorem claim_C7 (s1 s2 : Sent) :
    0 ≤ (compare_sentencias s1 s2).content_similarity ∧
    (compare_sentencias s1 s2).content_similarity ≤ 1 ∧
    (compare_sentencias s1 s2).fundamentos_diff =
      (unifiedDiff 3 (pySplitlines (fundTextCmp s1))
        (pySplitlines (fundTextCmp s2))).take 50 ∧
    (compare_sentencias s1 s2).fundamentos_diff.length ≤ 50 := by
  refine ⟨?_, ?_, rfl, ?_⟩
  · exact ratioQ_nonneg _ _
  · exact ratioQ_le_one _ _
  · show ((unifiedDiff 3 _ _).take 50).length ≤ 50
    rw [List.length_take]
    omega

/-! ## Claim C10: empty keyword strings and `common_keywords` -/

/-- C10: the keyword string is split on `', '`, and `''.split(', ')` is
`['']`, so two records with empty keyword strings share the empty string as
a common keyword and their reported common-keyword list is non-empty. -/
theorem claim_C10 (s1 s2 : Sent)
    (h1 : s1.palabras_clave.getD "" = "")
    (h2 : s2.palabras_clave.getD "" = "") :
    "" ∈ (compare_sentencias s1 s2).common_keywords ∧
      (compare_sentencias s1 s2).common_keywords ≠ [] := by
  have k1 : kwSplit s1 = [""] := by
    simp only [kwSplit, h1]
    rfl
  have k2 : kwSplit s2 = [""] := by
    simp only [kwSplit, h2]
    rfl
  have hck : (compare_sentencias s1 s2).common_keywords = [""] := by
    simp only [compare_sentencias, k1, k2]
    rfl
  rw [hck]
  simp

/-- C10, witness: two records with no keyword field at all. -/
theorem claim_C10_witness :
    "" ∈ (compare_sentencias ⟨none, none, none, none, none, none, none⟩
        ⟨none, none, none, none, none, none, none⟩).common_keywords :=
  (claim_C10 ⟨none, none, none, none, none, none, none⟩
    ⟨none, none, none, none, none, none, none⟩ rfl rfl).1

/-! ## Claim C2: stop-date correctness -/

/-- Lemma: `processItems` with a stop date keeps exactly the longest prefix of
non-stopping items, and flags whether any item stops. -/
theorem processItems_some (d : Nat × Nat × Nat) :
    ∀ items : List SourceItem,
      processItems (some d) items =
        ((items.takeWhile (fun s => !itemStops (dateKey d) s)).map
            normalizeItem,
          items.any (itemStops (dateKey d)))
  | [] => rfl
  | s :: rest => by
    by_cases hs : itemStops (dateKey d) s
    · simp [processItems, List.takeWhile_cons, List.any_cons, hs]
    · simp only [Bool.not_eq_true] at hs
      simp [processItems, List.takeWhile_cons, List.any_cons, hs,
        processItems_some d rest]

/-- Lemma: `takeWhile` keeps a list all of whose elements satisfy the predicate. -/
theorem takeWhile_all {α : Type} (p : α → Bool) :
    ∀ l : List α, (∀ x ∈ l, p x = true) → l.takeWhile p = l
  | [], _ => rfl
  | x :: xs, h => by
    rw [List.takeWhile_cons, if_pos (h x (List.mem_cons_self x xs)),
      takeWhile_all p xs (fun y hy => h y (List.mem_cons_of_mem x hy))]

/-- Lemma: `takeWhile` passes over a fully satisfying prefix. -/
theorem takeWhile_append_all {α : Type} (p : α → Bool) :
    ∀ (xs ys : List α), (∀ x ∈ xs, p x = true) →
      (xs ++ ys).takeWhile p = xs ++ ys.takeWhile p
  | [], _, _ => rfl
  | x :: xs, ys, h => by
    rw [List.cons_append, List.takeWhile_cons,
      if_pos (h x (List.mem_cons_self x xs)),
      takeWhile_append_all p xs ys
        (fun y hy => h y (List.mem_cons_of_mem x hy)), List.cons_append]

/-- Lemma: `takeWhile` stops inside a prefix that contains a failing element. -/
theorem takeWhile_append_stop {α : Type} (p : α → Bool) :
    ∀ (xs ys : List α), (∃ x ∈ xs, p x = false) →
      (xs ++ ys).takeWhile p = xs.takeWhile p
  | [], _, h => absurd h (by simp)
  | x :: xs, ys, h => by
    by_cases hx : p x = true
    · have hex : ∃ y ∈ xs, p y = false := by
        obtain ⟨z, hz, hpz⟩ := h
        rcases List.mem_cons.mp hz with rfl | hz2
        · rw [hx] at hpz
          cases hpz
        · exact ⟨z, hz2, hpz⟩
      rw [List.cons_append, List.takeWhile_cons, if_pos hx,
        List.takeWhile_cons, if_pos hx, takeWhile_append_stop p xs ys hex]
    · rw [List.cons_append, List.takeWhile_cons, if_neg hx,
        List.takeWhile_cons, if_neg hx]

/-- Lemma: `takeWhile` only looks at the predicate on the list's members. -/
theorem takeWhile_congr_mem {α : Type} (p q : α → Bool) :
    ∀ l : List α, (∀ x ∈ l, p x = q x) → l.takeWhile p = l.takeWhile q
  | [], _ => rfl
  | x :: xs, h => by
    rw [List.takeWhile_cons, List.takeWhile_cons,
      h x (List.mem_cons_self x xs),
      takeWhile_congr_mem p q xs (fun y hy => h y (List.mem_cons_of_mem x hy))]

/-- On a list sorted by a relation under which failure of `p` propagates
forward, `filter` and `takeWhile` agree. -/
theorem filter_eq_takeWhile_of_sorted {α : Type} (p : α → Bool)
    (rel : α → α → Prop)
    (hmono : ∀ s t, rel s t → p s = false → p t = false) :
    ∀ l : List α, l.Pairwise rel → l.filter p = l.takeWhile p
  | [], _ => rfl
  | x :: xs, h => by
    obtain ⟨hx, hxs⟩ := List.pairwise_cons.mp h
    by_cases hpx : p x = true
    · rw [List.filter_cons_of_pos hpx, List.takeWhile_cons, if_pos hpx,
        filter_eq_takeWhile_of_sorted p rel hmono xs hxs]
    · have hpx2 : p x = false := by
        cases hq : p x
        · rfl
        · exact absurd hq hpx
      have : xs.filter p = [] := by
        rw [List.filter_eq_nil_iff]
        intro t ht
        rw [hmono x t (hx t ht) hpx2]
        simp
      rw [List.filter_cons_of_neg hpx, this, List.takeWhile_cons, if_neg hpx]

/-- Indexing decomposition of `drop` via `getD`. -/
theorem drop_eq_getD_cons {α : Type} (d : α) :
    ∀ (l : List α) (n : Nat), n < l.length →
      l.drop n = l.getD n d :: l.drop (n + 1)
  | a :: l, 0, _ => rfl
  | a :: l, n + 1, h => by
    have := drop_eq_getD_cons d l n (by simpa using h)
    simpa [List.getD] using this

/-- A defaulted in-range index reads a member. -/
theorem getD_mem {α : Type} (d : α) :
    ∀ (l : List α) (n : Nat), n < l.length → l.getD n d ∈ l
  | a :: l, 0, _ => List.mem_cons_self a l
  | a :: l, n + 1, h =>
    List.mem_cons_of_mem a (getD_mem d l n (by simpa using h))

/-- The retry loop of a well-behaved paginated source succeeds on the first
attempt. -/
theorem runAttempts_pagesWorld (pages : List (List SourceItem)) (k : Nat) :
    runAttempts (pagesWorld pages) k 3 0 5 =
      ⟨some (200, some ⟨false, some (pages.getD (k - 1) []),
          some pages.length⟩), 1, []⟩ := by
  simp [runAttempts, pagesWorld]

/-- One pagination step on a delivered, well-formed page: the loop appends
the processed items and then halts (stop flag), halts (last page) or
recurses on the next page. -/
theorem fetchLoop_goodPage (w : World) (sd : Option (Nat × Nat × Nat))
    (fuel page pr : Nat) (acc : List Ruling) (items : List SourceItem)
    (P : Nat)
    (h : (runAttempts w page 3 0 5).result =
      some (200, some ⟨false, some items, some P⟩))
    (hne : items ≠ []) :
    fetchLoop w none sd (fuel + 1) page pr acc =
      if (processItems sd items).2 = true then
        acc ++ (processItems sd items).1
      else if P ≤ page then acc ++ (processItems sd items).1
      else fetchLoop w none sd fuel (page + 1) (pr + 1)
        (acc ++ (processItems sd items).1) := by
  simp only [fetchLoop, h]
  simp [hne]

/-- The pagination loop over a well-behaved source, from page `k`: the
result appends, to the accumulator, the normalization of the longest
non-stopping prefix of the items of pages `k, k+1, …` in source order. -/
theorem fetchLoop_pages (pages : List (List SourceItem)) (D : Nat × Nat × Nat)
    (hpg : ∀ pg ∈ pages, pg ≠ []) :
    ∀ (fuel k pr : Nat) (acc : List Ruling), 1 ≤ k → k ≤ pages.length →
      pages.length - k < fuel →
      fetchLoop (pagesWorld pages) none (some D) fuel k pr acc =
        acc ++ (((pages.drop (k - 1)).flatten.takeWhile
            (fun s => !itemStops (dateKey D) s)).map normalizeItem) := by
  intro fuel
  induction fuel with
  | zero => intro k pr acc _ _ h; omega
  | succ fuel ih =>
    intro k pr acc hk1 hk2 hfuel
    have hklt : k - 1 < pages.length := by omega
    have hitems : pages.getD (k - 1) [] ≠ [] :=
      hpg (pages.getD (k - 1) []) (getD_mem [] pages (k - 1) hklt)
    have hdrop : pages.drop (k - 1) =
        pages.getD (k - 1) [] :: pages.drop k := by
      have := drop_eq_getD_cons [] pages (k - 1) hklt
      rwa [Nat.sub_add_cancel hk1] at this
    rw [fetchLoop_goodPage (pagesWorld pages) (some D) fuel k pr acc
        (pages.getD (k - 1) []) pages.length
        (congrArg Attempted.result (runAttempts_pagesWorld pages k)) hitems,
      processItems_some, hdrop, List.flatten_cons]
    by_cases hstop :
        (pages.getD (k - 1) []).any (itemStops (dateKey D)) = true
    · rw [if_pos hstop,
        takeWhile_append_stop _ _ _ (by
          obtain ⟨x, hx, hpx⟩ := List.any_eq_true.mp hstop
          exact ⟨x, hx, by simp [hpx]⟩)]
    · have hall : ∀ x ∈ pages.getD (k - 1) [],
          (!itemStops (dateKey D) x) = true := by
        intro x hx
        have hfalse :
            (pages.getD (k - 1) []).any (itemStops (dateKey D)) = false :=
          Bool.eq_false_iff.mpr hstop
        have := List.any_eq_false.mp hfalse x hx
        simp [this]
      have hrw : (pages.getD (k - 1) []).takeWhile
          (fun s => !itemStops (dateKey D) s) = pages.getD (k - 1) [] :=
        takeWhile_all _ _ hall
      rw [if_neg hstop, takeWhile_append_all _ _ _ hall, hrw]
      by_cases hlast : pages.length ≤ k
      · have hdk : pages.drop k = [] := by
          rw [List.drop_eq_nil_iff]
          omega
        rw [if_pos hlast, hdk, List.flatten_nil]
        simp only [List.takeWhile_nil, List.append_nil]
      · rw [if_neg hlast,
          ih (k + 1) (pr + 1)
            (acc ++ (pages.getD (k - 1) []).map normalizeItem)
            (by omega) (by omega) (by omega)]
        simp only [Nat.add_sub_cancel, List.map_append, List.append_assoc]

/-- C2: over a well-behaved paginated source whose items all carry valid
ISO dates that strictly descend across the whole run, fetching with a valid
stop date `D` returns exactly the items dated `≥ D`, normalized, in source
order — however many pages that spans; everything from the first older item
on is discarded. -/
theorem claim_C2 (pages : List (List SourceItem)) (Dstr : String)
    (D : Nat × Nat × Nat) (fuel : Nat)
    (hD : parseDate Dstr = some D)
    (hne : pages ≠ [])
    (hpg : ∀ pg ∈ pages, pg ≠ [])
    (hdates : ∀ s ∈ pages.flatten, (itemDate s).isSome = true)
    (hdesc : pages.flatten.Pairwise (fun s t =>
      dateKey ((itemDate t).getD (0, 0, 0)) <
        dateKey ((itemDate s).getD (0, 0, 0))))
    (hfuel : pages.length ≤ fuel) :
    fetch_data (pagesWorld pages) 1 none (some Dstr) fuel =
      (pages.flatten.filter (fun s =>
        decide (dateKey D ≤ dateKey ((itemDate s).getD (0, 0, 0))))).map
        normalizeItem := by
  have hP : 1 ≤ pages.length := by
    have := List.length_pos.mpr hne
    omega
  unfold fetch_data
  rw [Option.some_bind, hD,
    fetchLoop_pages pages D hpg fuel 1 0 [] le_rfl hP (by omega)]
  simp only [Nat.sub_self, List.drop_zero, List.nil_append]
  congr 1
  rw [takeWhile_congr_mem _
      (fun s => decide (dateKey D ≤ dateKey ((itemDate s).getD (0, 0, 0))))
      pages.flatten
      (by
        intro s hs
        obtain ⟨d, hd⟩ := Option.isSome_iff_exists.mp (hdates s hs)
        simp only [itemStops, hd, Option.getD_some]
        rw [← decide_not]
        simp [Nat.not_lt])]
  exact (filter_eq_takeWhile_of_sorted _
    (fun s t => dateKey ((itemDate t).getD (0, 0, 0)) <
      dateKey ((itemDate s).getD (0, 0, 0)))
    (by
      intro s t hrel hks
      simp only [decide_eq_false_iff_not, Nat.not_le] at hks ⊢
      omega)
    pages.flatten hdesc).symm

/-- C2, witness: a two-page descending corpus with stop date equal to the
first item's date returns exactly the first item. -/
theorem claim_C2_witness :
    fetch_data (pagesWorld
        [[⟨some 1, some "S1", some "2024-01-03", none, none, none,
            some ["t1"], none⟩],
         [⟨some 2, some "S2", some "2024-01-02", none, none, none,
            some ["t2"], none⟩]]) 1 none (some "2024-01-03") 2 =
      [normalizeItem ⟨some 1, some "S1", some "2024-01-03", none, none, none,
          some ["t1"], none⟩] :=
  (claim_C2
    [[⟨some 1, some "S1", some "2024-01-03", none, none, none,
        some ["t1"], none⟩],
     [⟨some 2, some "S2", some "2024-01-02", none, none, none,
        some ["t2"], none⟩]]
    "2024-01-03" (2024, 1, 3) 2 (by decide) (by decide) (by decide)
    (by decide) (by decide) (by decide)).trans (by decide)

/-! ## Claim C4: similarity queries -/

/-- Lemma: `list.index` of a member is in range. -/
theorem idxOfNat_lt_length (a : Nat) :
    ∀ l : List Nat, a ∈ l → idxOfNat a l < l.length
  | b :: l, h => by
    by_cases hb : b = a
    · simp [idxOfNat, hb]
    · have ha : a ∈ l := by
        rcases List.mem_cons.mp h with rfl | h2
        · exact absurd rfl hb
        · exact h2
      have := idxOfNat_lt_length a l ha
      simp only [idxOfNat]
      rw [if_neg hb]
      simp only [List.length_cons]
      omega

/-- Reading back the id at `list.index`. -/
theorem getD_idxOfNat (a : Nat) :
    ∀ l : List Nat, a ∈ l → l.getD (idxOfNat a l) 0 = a
  | b :: l, h => by
    by_cases hb : b = a
    · simp [idxOfNat, hb]
    · have ha : a ∈ l := by
        rcases List.mem_cons.mp h with rfl | h2
        · exact absurd rfl hb
        · exact h2
      simp only [idxOfNat]
      rw [if_neg hb]
      simp only [List.getD_cons_succ]
      exact getD_idxOfNat a l ha

/-- In a duplicate-free id list, defaulted reads at distinct in-range
positions are distinct. -/
theorem nodup_getD_inj :
    ∀ l : List Nat, l.Nodup → ∀ i j, i < l.length → j < l.length →
      l.getD i 0 = l.getD j 0 → i = j
  | [], _, i, j, hi, _, _ => by simp at hi
  | a :: l, hnd, 0, 0, _, _, _ => rfl
  | a :: l, hnd, 0, j + 1, hi, hj, he => by
    obtain ⟨ha, hl⟩ := List.nodup_cons.mp hnd
    simp only [List.getD_cons_zero, List.getD_cons_succ] at he
    have : a ∈ l := by
      rw [he]
      exact getD_mem 0 l j (by simpa using hj)
    exact absurd this ha
  | a :: l, hnd, i + 1, 0, hi, hj, he => by
    obtain ⟨ha, hl⟩ := List.nodup_cons.mp hnd
    simp only [List.getD_cons_zero, List.getD_cons_succ] at he
    have : a ∈ l := by
      rw [← he]
      exact getD_mem 0 l i (by simpa using hi)
    exact absurd this ha
  | a :: l, hnd, i + 1, j + 1, hi, hj, he => by
    obtain ⟨ha, hl⟩ := List.nodup_cons.mp hnd
    simp only [List.getD_cons_succ] at he
    have := nodup_getD_inj l hl i j (by simpa using hi) (by simpa using hj) he
    omega

/-- Lemma: `list.index` of the id stored at position `n`, in a duplicate-free id
list, is `n` itself. -/
theorem idxOfNat_getD (l : List Nat) (hnd : l.Nodup) (n : Nat)
    (hn : n < l.length) : idxOfNat (l.getD n 0) l = n := by
  have hmem : l.getD n 0 ∈ l := getD_mem 0 l n hn
  exact nodup_getD_inj l hnd _ n (idxOfNat_lt_length _ l hmem) hn
    (getD_idxOfNat _ l hmem)

/-- Indices produced by `enumerate` start at the given offset. -/
theorem enumPairs_ge {α : Type} :
    ∀ (n : Nat) (l : List α) (p : Nat × α), p ∈ enumPairs n l → n ≤ p.1
  | _, [], p, h => absurd h (by simp [enumPairs])
  | n, a :: as, p, h => by
    rcases List.mem_cons.mp h with rfl | h2
    · simp
    · have := enumPairs_ge (n + 1) as p h2
      omega

/-- Members of `enumerate`: the index is in range and the value is a list
member. -/
theorem mem_enumPairs {α : Type} :
    ∀ (n : Nat) (l : List α) (p : Nat × α), p ∈ enumPairs n l →
      p.1 < n + l.length ∧ p.2 ∈ l
  | _, [], p, h => absurd h (by simp [enumPairs])
  | n, a :: as, p, h => by
    rcases List.mem_cons.mp h with rfl | h2
    · simp
    · obtain ⟨h1, h2b⟩ := mem_enumPairs (n + 1) as p h2
      exact ⟨by simp only [List.length_cons]; omega, List.mem_cons_of_mem a h2b⟩

/-- Lemma: `enumerate` produces strictly increasing indices. -/
theorem enumPairs_pairwise {α : Type} :
    ∀ (n : Nat) (l : List α),
      (enumPairs n l).Pairwise (fun a b => a.1 < b.1)
  | _, [] => List.Pairwise.nil
  | n, a :: as => by
    refine List.Pairwise.cons ?_ (enumPairs_pairwise (n + 1) as)
    intro q hq
    have := enumPairs_ge (n + 1) as q hq
    omega

/-- Membership through the stable insertion. -/
theorem mem_insDesc {α β : Type} [LinearOrder β] (key : α → β) (x : α) :
    ∀ (l : List α) (z : α), z ∈ insDesc key x l ↔ z = x ∨ z ∈ l
  | [], z => by simp [insDesc]
  | y :: ys, z => by
    simp only [insDesc]
    by_cases h : key x < key y
    · simp only [if_pos h, List.mem_cons, mem_insDesc key x ys z]
      tauto
    · simp only [if_neg h, List.mem_cons]

/-- Membership through the stable sort. -/
theorem mem_sortDesc {α β : Type} [LinearOrder β] (key : α → β) :
    ∀ (l : List α) (z : α), z ∈ sortDesc key l ↔ z ∈ l
  | [], z => by simp [sortDesc]
  | x :: xs, z => by
    have : sortDesc key (x :: xs) = insDesc key x (sortDesc key xs) := rfl
    rw [this, mem_insDesc]
    simp only [List.mem_cons, mem_sortDesc key xs z]

/-- Inserting an element whose original position lies before every element
already in the sorted list keeps it sorted by the stable descending order
(score strictly greater, or equal score and original position smaller). -/
theorem insDesc_pairwise {α β : Type} [LinearOrder β] (key : α → β)
    (idxf : α → Nat) (x : α) :
    ∀ m : List α,
      m.Pairwise (fun a b =>
        key b < key a ∨ (key a = key b ∧ idxf a < idxf b)) →
      (∀ y ∈ m, idxf x < idxf y) →
      (insDesc key x m).Pairwise (fun a b =>
        key b < key a ∨ (key a = key b ∧ idxf a < idxf b))
  | [], _, _ => List.pairwise_singleton _ x
  | y :: ys, h, hidx => by
    obtain ⟨hy, hys⟩ := List.pairwise_cons.mp h
    by_cases hlt : key x < key y
    · simp only [insDesc, if_pos hlt]
      refine List.Pairwise.cons ?_
        (insDesc_pairwise key idxf x ys hys
          (fun z hz => hidx z (List.mem_cons_of_mem y hz)))
      intro z hz
      rcases (mem_insDesc key x ys z).mp hz with rfl | hz2
      · exact Or.inl hlt
      · exact hy z hz2
    · simp only [insDesc, if_neg hlt]
      have hyx : key y ≤ key x := le_of_not_lt hlt
      refine List.Pairwise.cons ?_ h
      intro z hz
      rcases List.mem_cons.mp hz with rfl | hz2
      · rcases lt_or_eq_of_le hyx with h1 | h1
        · exact Or.inl h1
        · exact Or.inr ⟨h1.symm, hidx z (List.mem_cons_self z ys)⟩
      · have hzy : key z ≤ key y := by
          rcases hy z hz2 with h1 | ⟨h1, _⟩
          · exact le_of_lt h1
          · exact le_of_eq h1.symm
        rcases lt_or_eq_of_le (le_trans hzy hyx) with h1 | h1
        · exact Or.inl h1
        · exact Or.inr ⟨h1.symm, hidx z (List.mem_cons_of_mem y hz2)⟩

/-- The stable descending sort of a list with strictly increasing original
positions is sorted by score descending with ties in original order. -/
theorem sortDesc_pairwise {α β : Type} [LinearOrder β] (key : α → β)
    (idxf : α → Nat) :
    ∀ l : List α, l.Pairwise (fun a b => idxf a < idxf b) →
      (sortDesc key l).Pairwise (fun a b =>
        key b < key a ∨ (key a = key b ∧ idxf a < idxf b))
  | [], _ => List.Pairwise.nil
  | x :: xs, h => by
    obtain ⟨hx, hxs⟩ := List.pairwise_cons.mp h
    have : sortDesc key (x :: xs) = insDesc key x (sortDesc key xs) := rfl
    rw [this]
    exact insDesc_pairwise key idxf x (sortDesc key xs)
      (sortDesc_pairwise key idxf xs hxs)
      (fun y hy => hx y ((mem_sortDesc key xs y).mp hy))

/-- Characterization of the result-collection loop: the output extends the
accumulator with the image of a sublist of the pairs, each of which passed
the `i != idx and score >= threshold` test. -/
theorem selectLoop_char (ids : List Nat) (idx : Nat) (thr : ℝ) (lim : Nat) :
    ∀ (pairs : List (Nat × ℝ)) (acc : List SimResult),
      ∃ sub : List (Nat × ℝ), sub.Sublist pairs ∧
        (∀ p ∈ sub, p.1 ≠ idx ∧ thr ≤ p.2) ∧
        selectLoop ids idx thr lim pairs acc =
          acc ++ sub.map (fun p => ⟨ids.getD p.1 0, p.2⟩)
  | [], acc => ⟨[], List.nil_sublist _, by simp, by simp [selectLoop]⟩
  | p :: rest, acc => by
    by_cases hc : p.1 ≠ idx ∧ thr ≤ p.2
    · by_cases hlim : lim ≤ (acc ++ [(⟨ids.getD p.1 0, p.2⟩ : SimResult)]).length
      · refine ⟨[p], (List.nil_sublist rest).cons₂ p, by simpa using hc, ?_⟩
        simp only [selectLoop, if_pos hc, if_pos hlim, List.map_cons,
          List.map_nil]
      · obtain ⟨sub, hsub, hprop, heq⟩ :=
          selectLoop_char ids idx thr lim rest
            (acc ++ [(⟨ids.getD p.1 0, p.2⟩ : SimResult)])
        refine ⟨p :: sub, hsub.cons₂ p, ?_, ?_⟩
        · intro q hq
          rcases List.mem_cons.mp hq with rfl | hq2
          · exact hc
          · exact hprop q hq2
        · simp only [selectLoop, if_pos hc, if_neg hlim, heq, List.map_cons,
            List.append_assoc, List.singleton_append]
    · obtain ⟨sub, hsub, hprop, heq⟩ := selectLoop_char ids idx thr lim rest acc
      exact ⟨sub, hsub.cons p, hprop, by
        simp only [selectLoop, if_neg hc, heq]⟩

/-- Length bound of the result-collection loop: at most `limit` results,
except that a `limit` below one is overshot by the single append performed
before the break test. -/
theorem selectLoop_len (ids : List Nat) (idx : Nat) (thr : ℝ) (lim : Nat) :
    ∀ (pairs : List (Nat × ℝ)) (acc : List SimResult),
      (selectLoop ids idx thr lim pairs acc).length ≤
        max lim (acc.length + 1)
  | [], acc => by
    simp only [selectLoop]
    omega
  | p :: rest, acc => by
    simp only [selectLoop]
    split
    · split
      · simp only [List.length_append, List.length_cons, List.length_nil]
        omega
      · rename_i h2
        have hrec := selectLoop_len ids idx thr lim rest
          (acc ++ [(⟨ids.getD p.1 0, p.2⟩ : SimResult)])
        simp only [List.length_append, List.length_cons, List.length_nil]
          at hrec h2
        omega
    · have hrec := selectLoop_len ids idx thr lim rest acc
      omega

/-- Rational helper for the Cauchy-Schwarz induction step. -/
theorem csAux (x y z a b : ℚ) (hx : 0 ≤ x) (hy : 0 ≤ y) (hz : z ^ 2 ≤ x * y) :
    2 * (a * b) * z ≤ a ^ 2 * y + b ^ 2 * x := by
  have hX : 0 ≤ a ^ 2 * y + b ^ 2 * x := by positivity
  have hsq : (2 * (a * b) * z) ^ 2 ≤ (a ^ 2 * y + b ^ 2 * x) ^ 2 := by
    nlinarith [sq_nonneg (a ^ 2 * y - b ^ 2 * x), sq_nonneg (a * b),
      mul_nonneg (sq_nonneg (a * b)) (sub_nonneg.mpr hz)]
  by_cases hY : 2 * (a * b) * z ≤ 0
  · linarith
  · push_neg at hY
    nlinarith [hsq, hX, hY]

/-- A self dot product is nonnegative. -/
theorem dotQ_self_nonneg (u : List ℚ) : 0 ≤ dotQ u u := by
  induction u with
  | nil => simp [dotQ]
  | cons a u ih =>
    simp only [dotQ, List.zipWith_cons_cons, List.sum_cons] at *
    nlinarith [mul_self_nonneg a]

/-- Cauchy-Schwarz for list dot products. -/
theorem dotQ_sq_le (u v : List ℚ) : (dotQ u v) ^ 2 ≤ dotQ u u * dotQ v v := by
  induction u generalizing v with
  | nil => simp [dotQ]
  | cons a u ih =>
    cases v with
    | nil => simp [dotQ]
    | cons b v =>
      have h1 := ih v
      have h2 := dotQ_self_nonneg u
      have h3 := dotQ_self_nonneg v
      have h4 := csAux (dotQ u u) (dotQ v v) (dotQ u v) a b h2 h3 h1
      simp only [dotQ, List.zipWith_cons_cons, List.sum_cons] at *
      nlinarith [h4, h1, h2, h3]

/-- Cosine similarity never exceeds one. -/
theorem cosSim_le_one (u v : List ℚ) : cosSim u v ≤ 1 := by
  unfold cosSim
  split
  · norm_num
  · rename_i h
    push_neg at h
    have hA : (0 : ℝ) < ((dotQ u u : ℚ) : ℝ) := by
      rw [Rat.cast_pos]
      exact lt_of_le_of_ne (dotQ_self_nonneg u) (Ne.symm h.1)
    have hB : (0 : ℝ) < ((dotQ v v : ℚ) : ℝ) := by
      rw [Rat.cast_pos]
      exact lt_of_le_of_ne (dotQ_self_nonneg v) (Ne.symm h.2)
    rw [div_le_one (by positivity)]
    have hcs : (((dotQ u v : ℚ) : ℝ)) ^ 2 ≤
        ((dotQ u u : ℚ) : ℝ) * ((dotQ v v : ℚ) : ℝ) := by
      exact_mod_cast dotQ_sq_le u v
    calc ((dotQ u v : ℚ) : ℝ) ≤ |((dotQ u v : ℚ) : ℝ)| := le_abs_self _
    _ = Real.sqrt (((dotQ u v : ℚ) : ℝ) ^ 2) := (Real.sqrt_sq_eq_abs _).symm
    _ ≤ Real.sqrt (((dotQ u u : ℚ) : ℝ) * ((dotQ v v : ℚ) : ℝ)) :=
      Real.sqrt_le_sqrt hcs
    _ = Real.sqrt _ * Real.sqrt _ := Real.sqrt_mul (le_of_lt hA) _

/-- C4, amended: `find_similar` is soft-empty on an unbuilt index or an
unknown id; every returned score lies in `[threshold, 1]`; the result
length is at most `max limit 1` (a qualifying neighbour is appended before
the break test, so `limit = 0` still yields one result); and on a built
index with duplicate-free ids the target id itself never appears and the
results are sorted by score descending with ties in original corpus
order. -/
theorem claim_C4 (st : AnalyzerState) (sid : Nat) (thr : ℝ) (lim : Nat) :
    (st.vectors = none → find_similar st sid thr lim = []) ∧
    (sid ∉ st.sentencias_ids → find_similar st sid thr lim = []) ∧
    (find_similar st sid thr lim).length ≤ max lim 1 ∧
    (∀ r ∈ find_similar st sid thr lim, thr ≤ r.sim ∧ r.sim ≤ 1) ∧
    (WFIndex st → st.sentencias_ids.Nodup →
      (∀ r ∈ find_similar st sid thr lim, r.id ≠ sid) ∧
      (find_similar st sid thr lim).Pairwise (fun x y =>
        y.sim < x.sim ∨ (x.sim = y.sim ∧
          idxOfNat x.id st.sentencias_ids <
            idxOfNat y.id st.sentencias_ids))) := by
  cases hv : st.vectors with
  | none =>
    have he : find_similar st sid thr lim = [] := by
      simp [find_similar, hv]
    rw [he]
    refine ⟨fun _ => rfl, fun _ => rfl, by simp, by simp, fun _ _ => ⟨by simp, by simp⟩⟩
  | some vss =>
    by_cases hmem : sid ∈ st.sentencias_ids
    · have he : find_similar st sid thr lim =
          selectLoop st.sentencias_ids (idxOfNat sid st.sentencias_ids) thr lim
            (sortDesc (fun p : Nat × ℝ => p.2)
              (enumPairs 0 (vss.map (fun v =>
                cosSim (vss.getD (idxOfNat sid st.sentencias_ids) []) v)))) [] := by
        simp [find_similar, hv, hmem]
      obtain ⟨sub, hsub, hprop, heq⟩ :=
        selectLoop_char st.sentencias_ids (idxOfNat sid st.sentencias_ids) thr
          lim (sortDesc (fun p : Nat × ℝ => p.2)
            (enumPairs 0 (vss.map (fun v =>
              cosSim (vss.getD (idxOfNat sid st.sentencias_ids) []) v)))) []
      have hres : find_similar st sid thr lim =
          sub.map (fun p => ⟨st.sentencias_ids.getD p.1 0, p.2⟩) := by
        rw [he, heq, List.nil_append]
      have hsubpairs : ∀ p ∈ sub, p ∈ enumPairs 0 (vss.map (fun v =>
          cosSim (vss.getD (idxOfNat sid st.sentencias_ids) []) v)) := by
        intro p hp
        exact (mem_sortDesc _ _ p).mp (hsub.subset hp)
      refine ⟨?_, ?_, ?_, ?_, ?_⟩
      · intro h
        simp at h
      · intro h
        exact absurd hmem h
      · rw [he]
        have := selectLoop_len st.sentencias_ids
          (idxOfNat sid st.sentencias_ids) thr lim
          (sortDesc (fun p : Nat × ℝ => p.2)
            (enumPairs 0 (vss.map (fun v =>
              cosSim (vss.getD (idxOfNat sid st.sentencias_ids) []) v)))) []
        simpa using this
      · intro r hr
        rw [hres] at hr
        obtain ⟨p, hp, rfl⟩ := List.mem_map.mp hr
        refine ⟨(hprop p hp).2, ?_⟩
        have hmemp := (mem_enumPairs _ _ p (hsubpairs p hp)).2
        obtain ⟨v, _, hveq⟩ := List.mem_map.mp hmemp
        show p.2 ≤ 1
        rw [← hveq]
        exact cosSim_le_one _ v
      · intro hwf hnd
        have hlen : vss.length = st.sentencias_ids.length := hwf vss hv
        have hidx : idxOfNat sid st.sentencias_ids <
            st.sentencias_ids.length :=
          idxOfNat_lt_length sid st.sentencias_ids hmem
        have hrange : ∀ p ∈ sub, p.1 < st.sentencias_ids.length := by
          intro p hp
          have := (mem_enumPairs _ _ p (hsubpairs p hp)).1
          simp only [Nat.zero_add, List.length_map] at this
          omega
        constructor
        · intro r hr
          rw [hres] at hr
          obtain ⟨p, hp, rfl⟩ := List.mem_map.mp hr
          show st.sentencias_ids.getD p.1 0 ≠ sid
          intro hcontra
          have hgid : st.sentencias_ids.getD
              (idxOfNat sid st.sentencias_ids) 0 = sid :=
            getD_idxOfNat sid st.sentencias_ids hmem
          have := nodup_getD_inj st.sentencias_ids hnd p.1
            (idxOfNat sid st.sentencias_ids) (hrange p hp) hidx
            (hcontra.trans hgid.symm)
          exact (hprop p hp).1 this
        · rw [hres]
          have hpairssorted := sortDesc_pairwise (fun p : Nat × ℝ => p.2)
            Prod.fst _ (enumPairs_pairwise 0 (vss.map (fun v =>
              cosSim (vss.getD (idxOfNat sid st.sentencias_ids) []) v)))
          have hsubsorted := hpairssorted.sublist hsub
          rw [List.pairwise_map]
          refine hsubsorted.imp_of_mem ?_
          intro p q hp hq hrel
          rcases hrel with h1 | ⟨h1, h2⟩
          · exact Or.inl h1
          · refine Or.inr ⟨h1, ?_⟩
            rw [idxOfNat_getD st.sentencias_ids hnd p.1 (hrange p hp),
              idxOfNat_getD st.sentencias_ids hnd q.1 (hrange q hq)]
            exact h2
    · have he : find_similar st sid thr lim = [] := by
        simp [find_similar, hv, hmem]
      rw [he]
      exact ⟨fun _ => rfl, fun _ => rfl, by simp, by simp,
        fun _ _ => ⟨by simp, by simp⟩⟩

/-- C4, counterexample: with `limit = 0` and a duplicated id, the claim
fails twice over on one concrete built index: `find_similar` on two
identical one-dimensional vectors indexed `[10, 10]` returns one result
(of score 1) although the limit is 0, and that result carries the queried
id itself. -/
theorem claim_C4_counterexample :
    find_similar ⟨some [[1], [1]], [10, 10]⟩ 10 0 0 = [⟨10, 1⟩] ∧
    ¬((find_similar ⟨some [[1], [1]], [10, 10]⟩ 10 0 0).length ≤ 0) ∧
    ¬(∀ r ∈ find_similar ⟨some [[1], [1]], [10, 10]⟩ 10 0 0, r.id ≠ 10) := by
  have hcos : cosSim [1] [1] = 1 := by
    have h1 : dotQ [(1 : ℚ)] [1] = 1 := by norm_num [dotQ]
    unfold cosSim
    rw [h1]
    norm_num
  have hfs : find_similar ⟨some [[1], [1]], [10, 10]⟩ 10 0 0 = [⟨10, 1⟩] := by
    have hidx : idxOfNat 10 [10, 10] = 0 := by decide
    simp only [find_similar, hidx, List.mem_cons, List.mem_singleton,
      if_pos (by simp : (10 : Nat) ∈ [10, 10])]
    simp only [List.getD_cons_zero, List.map_cons, List.map_nil, hcos]
    have hsort : sortDesc (fun p : Nat × ℝ => p.2)
        (enumPairs 0 [(1 : ℝ), 1]) = [(0, 1), (1, 1)] := by
      simp [enumPairs, sortDesc, insDesc]
    rw [hsort]
    simp [selectLoop]
  refine ⟨hfs, ?_, ?_⟩
  · rw [hfs]
    simp
  · rw [hfs]
    intro h
    exact h ⟨10, 1⟩ (List.mem_singleton.mpr rfl) rfl

/-- C4, witness: the amended bounds at concrete inputs, with the
unbuilt-index and unknown-id hypotheses discharged. -/
theorem claim_C4_witness :
    (find_similar ⟨some [[1], [1]], [10, 20]⟩ 10 0 1).length ≤ max 1 1 ∧
    find_similar ⟨none, [3]⟩ 3 0 5 = [] ∧
    find_similar ⟨some [[1]], [7]⟩ 9 0 5 = [] :=
  ⟨(claim_C4 ⟨some [[1], [1]], [10, 20]⟩ 10 0 1).2.2.1,
   (claim_C4 ⟨none, [3]⟩ 3 0 5).1 rfl,
   (claim_C4 ⟨some [[1]], [7]⟩ 9 0 5).2.1 (by decide)⟩

end Spec2Proof
